import Mathlib

/-!
# libtar extraction (`src/libtar/extract.c`): a shallow embedding

The extraction code talks to two collaborators: the filesystem (POSIX calls)
and the archive reader (`th_read`, `readfunc`).  Both are modelled as explicit
state:

* `World` is the filesystem: a map from path names to objects, the process
  umask, `errno`, a log of the calls made so far, and a table `deny` of
  failures caused from outside (permissions, full disk, I/O errors).  The
  table is indexed by the number of calls already logged, so any call may
  fail at any moment.
* `TAR` is the archive handle: the option bits, the current header and the
  payload bytes of the current entry that have not been read yet.  The
  entries still to come are a list handed to `tar_extract_all`.

Conventions of the model:

* a path name denotes the object stored under exactly that string, so two
  different strings never alias (no normalisation of `.`, `..` or `//`, no
  hard-link aliasing); symbolic links that exist beforehand are objects of
  their own, and the calls that dereference (`open`, `fopen`, `chmod`,
  `stat`) follow them with the target read as a path of the same name space;
* memory allocation (`malloc`, `calloc`, `strdup`) always succeeds, so the
  `ENOMEM` exits of the source are not reachable;
* `size_t` arithmetic does not wrap (sizes are natural numbers);
* stdio streams are unbuffered: `fwrite` reaches the file at once.
-/

set_option maxRecDepth 100000

namespace Libtar

/-! ## Paths, objects, the world -/

/-- A C string holding a path name. -/
abbrev Path := List Char

/-- Values of `errno` that the model distinguishes. -/
inductive Errno
  | E0 | ENOENT | EEXIST | EACCES | EINVAL | ENOTDIR | EISDIR | EBADF | ELOOP | EPERM | ENXIO
  deriving DecidableEq, Repr

/-- An object stored under a name. -/
inductive Node
  | file (data : List Nat) (mode : Nat)
  | dir (mode : Nat)
  | symlink (target : Path)
  | chr (mode devmaj devmin : Nat)
  | blk (mode devmaj devmin : Nat)
  | fifo (mode : Nat)
  deriving DecidableEq, Repr

/-- The library calls that reach the filesystem. -/
inductive Sys
  | lstat | stat | open | write | fchmod | chmod | mkdir | link | mknod | mkfifo | unlink
  | fopen_r | fopen_w | fread | fwrite
  deriving DecidableEq, Repr

/-- The functions of `extract.c` that materialize one entry. -/
inductive Materializer
  | regfile | hardlink | symlink | chardev | blockdev | fifo | dir
  deriving DecidableEq, Repr

/-- What the log records. -/
inductive Event
  | sys (c : Sys) (p : Path)
  | wrote (p : Path) (data : List Nat)
  | readfunc (k : Nat)
  | call (m : Materializer) (p : Path)
  | copy (target linkname : Path)
  deriving DecidableEq, Repr

/-- The filesystem and process state seen by the extraction code. -/
structure World where
  fs : Path → Option Node
  deny : Nat → Sys → Path → Bool
  umask : Nat
  errno : Errno
  log : List Event

/-- Append an event to the log. -/
def World.emit (w : World) (e : Event) : World :=
  { w with log := w.log ++ [e] }

/-- Set `errno`. -/
def World.fail (w : World) (e : Errno) : World :=
  { w with errno := e }

/-- Store object `n` under name `p`. -/
def World.put (w : World) (p : Path) (n : Node) : World :=
  { w with fs := fun q => if q = p then some n else w.fs q }

/-- Remove the name `p`. -/
def World.del (w : World) (p : Path) : World :=
  { w with fs := fun q => if q = p then none else w.fs q }

/-- Is call `c` on `p` made to fail from outside at this moment? -/
def World.denied (w : World) (c : Sys) (p : Path) : Bool :=
  w.deny w.log.length c p

/-- The longest chain of symbolic links that is followed. -/
def SYMLOOP_MAX : Nat := 40

/-- Follow symbolic links starting at `p`; `none` when the chain is too long. -/
def follow (fs : Path → Option Node) : Nat → Path → Option Path
  | 0, _ => none
  | n + 1, p =>
    match fs p with
    | some (Node.symlink tgt) => follow fs n tgt
    | _ => some p

/-- The libc `dirname`: the path without its last component. -/
def dirname (p : Path) : Path :=
  let r := p.reverse.dropWhile (fun c => c == '/')
  if r = [] then (if p = [] then ['.'] else ['/'])
  else
    let r2 := r.dropWhile (fun c => c != '/')
    if r2 = [] then ['.']
    else
      let r3 := r2.dropWhile (fun c => c == '/')
      if r3 = [] then ['/'] else r3.reverse

/-- Why an object cannot be created under `p`: its parent is missing
(`ENOENT`) or is not a directory (`ENOTDIR`), or the name is empty
(`ENOENT`); `none` when the parent is a directory.  The working directory
`.` and the root `/` always exist. -/
def parentErr (fs : Path → Option Node) (p : Path) : Option Errno :=
  let d := dirname p
  if p = [] then some Errno.ENOENT
  else if d = ['.'] ∨ d = ['/'] then none
  else
    match follow fs SYMLOOP_MAX d with
    | none => some Errno.ELOOP
    | some q =>
      match fs q with
      | some (Node.dir _) => none
      | some _ => some Errno.ENOTDIR
      | none => some Errno.ENOENT

/-- The permission bits a creating call leaves: `mode & ~umask`. -/
def creatMode (mode umask : Nat) : Nat :=
  (mode &&& 0o7777) ^^^ ((mode &&& 0o7777) &&& umask)

/-- The object with its permission bits replaced, as `chmod` does. -/
def Node.chmod (m : Nat) : Node → Node
  | Node.file d _ => Node.file d (m &&& 0o7777)
  | Node.dir _ => Node.dir (m &&& 0o7777)
  | Node.symlink t => Node.symlink t
  | Node.chr _ a b => Node.chr (m &&& 0o7777) a b
  | Node.blk _ a b => Node.blk (m &&& 0o7777) a b
  | Node.fifo _ => Node.fifo (m &&& 0o7777)

/-- The permission bits of an object. -/
def Node.mode : Node → Option Nat
  | Node.file _ m => some m
  | Node.dir m => some m
  | Node.symlink _ => none
  | Node.chr m _ _ => some m
  | Node.blk m _ _ => some m
  | Node.fifo m => some m

/-! ## The filesystem calls -/

/-- The call `lstat(p)`: 0 when a name `p` exists (a link is not followed),
else -1 with `errno`. -/
def sys_lstat (w : World) (p : Path) : Int × World :=
  let w1 := w.emit (Event.sys Sys.lstat p)
  if w.denied Sys.lstat p then (-1, w1.fail Errno.EACCES)
  else
    match w.fs p with
    | some _ => (0, w1)
    | none => (-1, w1.fail Errno.ENOENT)

/-- The call `stat(p)`: as `lstat` but following links. -/
def sys_stat (w : World) (p : Path) : Int × World :=
  let w1 := w.emit (Event.sys Sys.stat p)
  if w.denied Sys.stat p then (-1, w1.fail Errno.EACCES)
  else
    match follow w.fs SYMLOOP_MAX p with
    | none => (-1, w1.fail Errno.ELOOP)
    | some q =>
      match w.fs q with
      | some _ => (0, w1)
      | none => (-1, w1.fail Errno.ENOENT)

/-- Opening `p` for writing with creation and truncation, permission 0666:
the body shared by `open(p, O_WRONLY|O_CREAT|O_TRUNC, 0666)` and
`fopen(p, "wb")`.  The descriptor is the name of the file reached. -/
def openTrunc (c : Sys) (w : World) (p : Path) : Option Path × World :=
  let w1 := w.emit (Event.sys c p)
  if w.denied c p then (none, w1.fail Errno.EACCES)
  else
    match follow w.fs SYMLOOP_MAX p with
    | none => (none, w1.fail Errno.ELOOP)
    | some q =>
      match w.fs q with
      | some (Node.file _ m) => (some q, w1.put q (Node.file [] m))
      | some (Node.dir _) => (none, w1.fail Errno.EISDIR)
      | some _ => (none, w1.fail Errno.ENXIO)
      | none =>
        match parentErr w.fs q with
        | some e => (none, w1.fail e)
        | none => (some q, w1.put q (Node.file [] (creatMode 0o666 w.umask)))

/-- The call `open(p, O_WRONLY | O_CREAT | O_TRUNC, 0666)`. -/
def sys_open (w : World) (p : Path) : Option Path × World :=
  openTrunc Sys.open w p

/-- The call `fopen(p, "wb")`. -/
def sys_fopen_w (w : World) (p : Path) : Option Path × World :=
  openTrunc Sys.fopen_w w p

/-- The call `fopen(p, "rb")`: a file or a directory can be opened for
reading (a directory then reads as empty). -/
def sys_fopen_r (w : World) (p : Path) : Option Path × World :=
  let w1 := w.emit (Event.sys Sys.fopen_r p)
  if w.denied Sys.fopen_r p then (none, w1.fail Errno.EACCES)
  else
    match follow w.fs SYMLOOP_MAX p with
    | none => (none, w1.fail Errno.ELOOP)
    | some q =>
      match w.fs q with
      | some (Node.file _ _) => (some q, w1)
      | some (Node.dir _) => (some q, w1)
      | some _ => (none, w1.fail Errno.ENXIO)
      | none => (none, w1.fail Errno.ENOENT)

/-- Appending `data` to the file open as `fd`: the body shared by `write`
and `fwrite`.  Returns the number of bytes written, -1 on failure. -/
def appendTo (c : Sys) (w : World) (fd : Option Path) (data : List Nat) : Int × World :=
  match fd with
  | none => (-1, w.fail Errno.EBADF)
  | some q =>
    let w1 := w.emit (Event.sys c q)
    if w.denied c q then (-1, w1.fail Errno.EACCES)
    else
      match w.fs q with
      | some (Node.file d m) =>
        (data.length, (w1.put q (Node.file (d ++ data) m)).emit (Event.wrote q data))
      | _ => (-1, w1.fail Errno.EBADF)

/-- The call `write(fd, data, |data|)`. -/
def sys_write (w : World) (fd : Option Path) (data : List Nat) : Int × World :=
  appendTo Sys.write w fd data

/-- The call `fwrite(data, 1, |data|, fp)`: the number of bytes written. -/
def sys_fwrite (w : World) (fp : Path) (data : List Nat) : Nat × World :=
  let r := appendTo Sys.fwrite w (some fp) data
  (r.1.toNat, r.2)

/-- The call `fread(buf, 1, n, fp)` with the stream at offset `off`: the bytes
read (none at end of file or on error). -/
def sys_fread (w : World) (fp : Path) (off n : Nat) : List Nat × World :=
  let w1 := w.emit (Event.sys Sys.fread fp)
  if w.denied Sys.fread fp then ([], w1.fail Errno.EACCES)
  else
    match w.fs fp with
    | some (Node.file d _) => ((d.drop off).take n, w1)
    | _ => ([], w1.fail Errno.EISDIR)

/-- The call `fchmod(fd, mode)`. -/
def sys_fchmod (w : World) (fd : Option Path) (mode : Nat) : Int × World :=
  match fd with
  | none => (-1, w.fail Errno.EBADF)
  | some q =>
    let w1 := w.emit (Event.sys Sys.fchmod q)
    if w.denied Sys.fchmod q then (-1, w1.fail Errno.EPERM)
    else
      match w.fs q with
      | some n => (0, w1.put q (n.chmod mode))
      | none => (-1, w1.fail Errno.EBADF)

/-- The call `chmod(p, mode)`: follows links. -/
def sys_chmod (w : World) (p : Path) (mode : Nat) : Int × World :=
  let w1 := w.emit (Event.sys Sys.chmod p)
  if w.denied Sys.chmod p then (-1, w1.fail Errno.EPERM)
  else
    match follow w.fs SYMLOOP_MAX p with
    | none => (-1, w1.fail Errno.ELOOP)
    | some q =>
      match w.fs q with
      | some n => (0, w1.put q (n.chmod mode))
      | none => (-1, w1.fail Errno.ENOENT)

/-- Creating the object `n` under the new name `p`: the body shared by
`mkdir`, `mknod` and `mkfifo`.  Fails with `EEXIST` when the name is taken
(a link is not followed; `.` and `/` are always taken). -/
def createAt (c : Sys) (w : World) (p : Path) (n : Node) : Int × World :=
  let w1 := w.emit (Event.sys c p)
  if w.denied c p then (-1, w1.fail Errno.EACCES)
  else if p = ['.'] ∨ p = ['/'] then (-1, w1.fail Errno.EEXIST)
  else
    match w.fs p with
    | some _ => (-1, w1.fail Errno.EEXIST)
    | none =>
      match parentErr w.fs p with
      | some e => (-1, w1.fail e)
      | none => (0, w1.put p n)

/-- The call `mkdir(p, mode)`. -/
def sys_mkdir (w : World) (p : Path) (mode : Nat) : Int × World :=
  createAt Sys.mkdir w p (Node.dir (creatMode mode w.umask))

/-- The call `mknod(p, mode | S_IFCHR, makedev(maj, min))`. -/
def sys_mknod_chr (w : World) (p : Path) (mode maj min : Nat) : Int × World :=
  createAt Sys.mknod w p (Node.chr (creatMode mode w.umask) maj min)

/-- The call `mknod(p, mode | S_IFBLK, makedev(maj, min))`. -/
def sys_mknod_blk (w : World) (p : Path) (mode maj min : Nat) : Int × World :=
  createAt Sys.mknod w p (Node.blk (creatMode mode w.umask) maj min)

/-- The call `mkfifo(p, mode)`. -/
def sys_mkfifo (w : World) (p : Path) (mode : Nat) : Int × World :=
  createAt Sys.mkfifo w p (Node.fifo (creatMode mode w.umask))

/-- The call `link(old, new)`: the new name gets the object of the old one. -/
def sys_link (w : World) (old new : Path) : Int × World :=
  let w1 := w.emit (Event.sys Sys.link new)
  if w.denied Sys.link new then (-1, w1.fail Errno.EACCES)
  else
    match w.fs old with
    | none => (-1, w1.fail Errno.ENOENT)
    | some (Node.dir _) => (-1, w1.fail Errno.EPERM)
    | some n =>
      match w.fs new with
      | some _ => (-1, w1.fail Errno.EEXIST)
      | none =>
        match parentErr w.fs new with
        | some e => (-1, w1.fail e)
        | none => (0, w1.put new n)

/-- The call `unlink(p)`. -/
def sys_unlink (w : World) (p : Path) : Int × World :=
  let w1 := w.emit (Event.sys Sys.unlink p)
  if w.denied Sys.unlink p then (-1, w1.fail Errno.EACCES)
  else
    match w.fs p with
    | none => (-1, w1.fail Errno.ENOENT)
    | some (Node.dir _) => (-1, w1.fail Errno.EISDIR)
    | some _ => (0, w1.del p)

/-! ## The archive handle -/

/-- Constants of `libtar.h` and `sys/param.h` that `extract.c` uses. -/
structure Consts where
  T_BLOCKSIZE : Nat
  MAXPATHLEN : Nat
  TAR_NOOVERWRITE : Nat

/-- The values on Linux with libtar 1.2. -/
def linux : Consts := ⟨512, 4096, 4⟩

/-- The type tag of an entry. -/
inductive FileType
  | Regular | Directory | Hardlink | Symlink | CharDevice | BlockDevice | Fifo
  deriving DecidableEq, Repr

/-- A decoded header. -/
structure Entry where
  path : Path
  typeflag : FileType
  mode : Nat
  size : Nat
  linkname : Path
  devmajor : Nat
  devminor : Nat
  deriving DecidableEq, Repr

/-- The handle `TAR *t`: option bits, the current header and the payload
bytes of the current entry not read yet. -/
structure TAR where
  options : Nat
  th_buf : Entry
  payload : List Nat
  deriving DecidableEq, Repr

/-- Modelled from the spec: the header accessors and type tests of
`libtar.h` (`th_get_*`, `TH_IS*`) are not in the source tree; an entry has
exactly one of the seven type tags (section 3, Entry). -/
def th_get_pathname (t : TAR) : Path := t.th_buf.path

/-- Modelled from the spec: see `th_get_pathname`. -/
def th_get_linkname (t : TAR) : Path := t.th_buf.linkname

/-- Modelled from the spec: see `th_get_pathname`. -/
def th_get_mode (t : TAR) : Nat := t.th_buf.mode

/-- Modelled from the spec: see `th_get_pathname`. -/
def th_get_size (t : TAR) : Nat := t.th_buf.size

/-- Modelled from the spec: see `th_get_pathname`. -/
def th_get_devmajor (t : TAR) : Nat := t.th_buf.devmajor

/-- Modelled from the spec: see `th_get_pathname`. -/
def th_get_devminor (t : TAR) : Nat := t.th_buf.devminor

/-- Modelled from the spec: see `th_get_pathname`. -/
def TH_ISREG (t : TAR) : Bool := t.th_buf.typeflag = FileType.Regular

/-- Modelled from the spec: see `th_get_pathname`. -/
def TH_ISDIR (t : TAR) : Bool := t.th_buf.typeflag = FileType.Directory

/-- Modelled from the spec: see `th_get_pathname`. -/
def TH_ISLNK (t : TAR) : Bool := t.th_buf.typeflag = FileType.Hardlink

/-- Modelled from the spec: see `th_get_pathname`. -/
def TH_ISSYM (t : TAR) : Bool := t.th_buf.typeflag = FileType.Symlink

/-- Modelled from the spec: see `th_get_pathname`. -/
def TH_ISCHR (t : TAR) : Bool := t.th_buf.typeflag = FileType.CharDevice

/-- Modelled from the spec: see `th_get_pathname`. -/
def TH_ISBLK (t : TAR) : Bool := t.th_buf.typeflag = FileType.BlockDevice

/-- Modelled from the spec: see `th_get_pathname`. -/
def TH_ISFIFO (t : TAR) : Bool := t.th_buf.typeflag = FileType.Fifo

/-- Modelled from the spec: the archive reader's `read_payload` (section 6),
reached through `t->type->readfunc`.  A request for `k` bytes is logged and
served from the unread payload; fewer than `k` bytes come back when the
stream is short. -/
def readfunc (t : TAR) (w : World) (k : Nat) : List Nat × TAR × World :=
  (t.payload.take k, { t with payload := t.payload.drop k }, w.emit (Event.readfunc k))

/-! ## Directories on demand -/

/-- The components of a path, empty ones dropped. -/
def components (p : Path) : List Path :=
  (p.foldr (fun c acc =>
      if c = '/' then [] :: acc
      else
        match acc with
        | [] => [[c]]
        | h :: r => (c :: h) :: r) []).filter (fun s => s ≠ [])

/-- The names of the directories on the way to `path`, outermost first. -/
def dirChain (path : Path) : List Path :=
  ((components path).foldl
    (fun (acc : Path × List Path) c =>
      let dst : Path :=
        if acc.1 = [] then c
        else if acc.1 = ['/'] then '/' :: c
        else acc.1 ++ '/' :: c
      (dst, acc.2 ++ [dst]))
    ((if path.head? = some '/' then ['/'] else []), [])).2

/-- Create each directory of the list in turn; one that exists already is
passed over, any other failure stops with -1. -/
def mkdirs : World → List Path → Int × World
  | w, [] => (0, w)
  | w, d :: ds =>
    let r := sys_mkdir w d 0o777
    if r.1 = -1 ∧ r.2.errno ≠ Errno.EEXIST then (-1, r.2)
    else mkdirs r.2 ds

/-- Modelled from the spec: `mkdirhier` of libtar's util.c is not in the
source tree.  Section 4.2: it creates every missing directory in the chain,
as an idempotent recursive `mkdir -p`, and succeeds when they all exist. -/
def mkdirhier (w : World) (path : Path) : Int × World :=
  mkdirs w (dirChain path)

/-- The function `mkdirs_for`: the directories above `filename`. -/
def mkdirs_for (w : World) (filename : Path) : Int × World :=
  mkdirhier w (dirname filename)

/-! ## The materializers -/

/-- The function `align_up` of `extract.c`. -/
def align_up (val align : Nat) : Nat :=
  let r := val % align
  if r ≠ 0 then val + (align - r) else val

/-- The part of `tar_extract_regfile` after the destination was opened (or
could not be, for a reason other than `ENOENT`): read the padded payload,
write `size` bytes of it, set the permission bits. -/
def regfile_body (k : Consts) (t : TAR) (w : World) (filename : Path)
    (fdout : Option Path) (mode size : Nat) : Int × TAR × World :=
  let to_read := align_up size k.T_BLOCKSIZE
  let rd := readfunc t w to_read
  if rd.1.length ≠ to_read then (-1, rd.2.1, rd.2.2.fail Errno.EINVAL)
  else
    let wr := sys_write rd.2.2 fdout (rd.1.take size)
    if wr.1 ≠ (size : Int) then (-1, rd.2.1, wr.2.fail Errno.EINVAL)
    else
      let fc := sys_fchmod wr.2 fdout (mode &&& 0o7777)
      if fc.1 = -1 then
        let ch := sys_chmod fc.2 filename (mode &&& 0o7777)
        if ch.1 = -1 then (-1, rd.2.1, ch.2) else (0, rd.2.1, ch.2)
      else (0, rd.2.1, fc.2)

/-- The opening of the destination in `tar_extract_regfile`: try to create
the file at once, and only when that fails with `ENOENT` create the
directories above it and try again.  The first component is `false` when the
function gives up here (`goto out`). -/
def regfile_open (w : World) (filename : Path) : Bool × Option Path × World :=
  let o1 := sys_open w filename
  if o1.1 = none ∧ o1.2.errno = Errno.ENOENT then
    let md := mkdirs_for o1.2 filename
    if md.1 = -1 then (false, none, md.2)
    else
      let o2 := sys_open md.2 filename
      if o2.1 = none then (false, none, o2.2) else (true, o2.1, o2.2)
  else (true, o1.1, o1.2)

/-- The function `tar_extract_regfile`. -/
def tar_extract_regfile (k : Consts) (t : TAR) (w : World) (realname : Option Path) :
    Int × TAR × World :=
  let filename := realname.getD (th_get_pathname t)
  let mode := th_get_mode t
  let size := th_get_size t
  let op := regfile_open (w.emit (Event.call Materializer.regfile filename)) filename
  if op.1 then regfile_body k t op.2.2 filename op.2.1 mode size
  else (-1, t, op.2.2)

/-- The function `tar_extract_hardlink`. -/
def tar_extract_hardlink (t : TAR) (w : World) (realname : Option Path) : Int × World :=
  let filename := realname.getD (th_get_pathname t)
  let w0 := w.emit (Event.call Materializer.hardlink filename)
  if ¬ TH_ISLNK t then (-1, w0.fail Errno.EINVAL)
  else
    let md := mkdirs_for w0 filename
    if md.1 = -1 then (-1, md.2)
    else
      let ln := sys_link md.2 (th_get_linkname t) filename
      if ln.1 = -1 then (-1, ln.2) else (0, ln.2)

/-- The copy loop of `tar_extract_symlink` and of pass 2 of
`tar_extract_all`: read chunks of up to 4096 bytes from `src` and write each
to `dst` until a read returns nothing.  The result is `false` when an
`fwrite` came back short (the loop body then closes both streams); `fuel`
bounds the number of reads, see `copy_stream`. -/
def copy_loop (src dst : Path) : Nat → Nat → World → Bool × World
  | 0, _, w => (true, w)
  | fuel + 1, off, w =>
    let rd := sys_fread w src off 4096
    if 0 < rd.1.length then
      let wr := sys_fwrite rd.2 dst rd.1
      if wr.1 ≠ rd.1.length then (false, wr.2)
      else copy_loop src dst fuel (off + rd.1.length) wr.2
    else (true, rd.2)

/-- The number of bytes of the file stored under `p`. -/
def fileSize (fs : Path → Option Node) (p : Path) : Nat :=
  match fs p with
  | some (Node.file d _) => d.length
  | _ => 0

/-- The copy loop run until the source is exhausted: one read more than the
source has bytes is always enough (`copy_stream_enough`). -/
def copy_stream (src dst : Path) (w : World) : Bool × World :=
  copy_loop src dst (fileSize w.fs src + 1) 0 w

/-- The function `tar_extract_symlink`: the link is realized as a copy of
the file it names. -/
def tar_extract_symlink (t : TAR) (w : World) (realname : Option Path) : Int × World :=
  let filename := realname.getD (th_get_pathname t)
  let w0 := w.emit (Event.call Materializer.symlink filename)
  if ¬ TH_ISSYM t then (-1, w0.fail Errno.EINVAL)
  else
    let md := mkdirs_for w0 filename
    if md.1 = -1 then (-1, md.2)
    else
      let ul := sys_unlink md.2 filename
      if ul.1 = -1 ∧ ul.2.errno ≠ Errno.ENOENT then (-1, ul.2)
      else
        let src := th_get_linkname t
        let w1 := ul.2.emit (Event.copy src filename)
        let sf := sys_fopen_r w1 src
        match sf.1 with
        | none => (-1, sf.2)
        | some src_fp =>
          let df := sys_fopen_w sf.2 filename
          match df.1 with
          | none => (-1, df.2)
          | some dst_fp =>
            let cp := copy_stream src_fp dst_fp df.2
            if cp.1 then (0, cp.2) else (-1, cp.2)

/-- The function `tar_extract_chardev`. -/
def tar_extract_chardev (t : TAR) (w : World) (realname : Option Path) : Int × World :=
  let filename := realname.getD (th_get_pathname t)
  let w0 := w.emit (Event.call Materializer.chardev filename)
  if ¬ TH_ISCHR t then (-1, w0.fail Errno.EINVAL)
  else
    let md := mkdirs_for w0 filename
    if md.1 = -1 then (-1, md.2)
    else
      let mk := sys_mknod_chr md.2 filename (th_get_mode t) (th_get_devmajor t) (th_get_devminor t)
      if mk.1 = -1 then (-1, mk.2) else (0, mk.2)

/-- The function `tar_extract_blockdev`. -/
def tar_extract_blockdev (t : TAR) (w : World) (realname : Option Path) : Int × World :=
  let filename := realname.getD (th_get_pathname t)
  let w0 := w.emit (Event.call Materializer.blockdev filename)
  if ¬ TH_ISBLK t then (-1, w0.fail Errno.EINVAL)
  else
    let md := mkdirs_for w0 filename
    if md.1 = -1 then (-1, md.2)
    else
      let mk := sys_mknod_blk md.2 filename (th_get_mode t) (th_get_devmajor t) (th_get_devminor t)
      if mk.1 = -1 then (-1, mk.2) else (0, mk.2)

/-- The function `tar_extract_dir`: 0 when the directory was created, 1 when
it existed and its mode was set again, -1 on failure. -/
def tar_extract_dir (t : TAR) (w : World) (realname : Option Path) : Int × World :=
  let filename := realname.getD (th_get_pathname t)
  let w0 := w.emit (Event.call Materializer.dir filename)
  if ¬ TH_ISDIR t then (-1, w0.fail Errno.EINVAL)
  else
    let mode := th_get_mode t
    let md := mkdirs_for w0 filename
    if md.1 = -1 then (-1, md.2)
    else
      let mk := sys_mkdir md.2 filename mode
      if mk.1 = -1 then
        if mk.2.errno = Errno.EEXIST then
          let ch := sys_chmod mk.2 filename mode
          if ch.1 = -1 then (-1, ch.2) else (1, ch.2)
        else (-1, mk.2)
      else (0, mk.2)

/-- The function `tar_extract_fifo`. -/
def tar_extract_fifo (t : TAR) (w : World) (realname : Option Path) : Int × World :=
  let filename := realname.getD (th_get_pathname t)
  let w0 := w.emit (Event.call Materializer.fifo filename)
  if ¬ TH_ISFIFO t then (-1, w0.fail Errno.EINVAL)
  else
    let md := mkdirs_for w0 filename
    if md.1 = -1 then (-1, md.2)
    else
      let mk := sys_mkfifo md.2 filename (th_get_mode t)
      if mk.1 = -1 then (-1, mk.2) else (0, mk.2)

/-- The dispatch of `tar_extract_file` on the type of the current entry:
the chain of `if (TH_ISDIR(t)) ... else /* regular */`. -/
def dispatch (k : Consts) (t : TAR) (w : World) (realname : Path) : Int × TAR × World :=
  if TH_ISDIR t then
    let r := tar_extract_dir t w (some realname)
    ((if r.1 = 1 then 0 else r.1), t, r.2)
  else if TH_ISLNK t then
    let r := tar_extract_hardlink t w (some realname)
    (r.1, t, r.2)
  else if TH_ISSYM t then
    let r := tar_extract_symlink t w (some realname)
    (r.1, t, r.2)
  else if TH_ISCHR t then
    let r := tar_extract_chardev t w (some realname)
    (r.1, t, r.2)
  else if TH_ISBLK t then
    let r := tar_extract_blockdev t w (some realname)
    (r.1, t, r.2)
  else if TH_ISFIFO t then
    let r := tar_extract_fifo t w (some realname)
    (r.1, t, r.2)
  else tar_extract_regfile k t w (some realname)

/-- The function `tar_extract_file`, the switchboard.  The name buffer
built after a successful dispatch is never used and is left out. -/
def tar_extract_file (k : Consts) (t : TAR) (w : World) (realname : Path) :
    Int × TAR × World :=
  if t.options &&& k.TAR_NOOVERWRITE ≠ 0 then
    let st := sys_lstat w realname
    if st.1 = 0 ∨ st.2.errno ≠ Errno.ENOENT then (-1, t, st.2.fail Errno.EEXIST)
    else dispatch k t st.2 realname
  else dispatch k t w realname

/-! ## The driver -/

/-- The record `struct symlink_entry` of `tar_extract_all`. -/
structure symlink_entry where
  target : Path
  linkname : Path
  mode : Nat
  deriving DecidableEq, Repr

/-- The path built in `buf` (and in `src_path`): `snprintf("%s/%s")` with a
destination directory, `strlcpy` without; both keep at most `MAXPATHLEN - 1`
characters. -/
def resolved (k : Consts) (pfx : Option Path) (name : Path) : Path :=
  match pfx with
  | some p => (p ++ '/' :: name).take (k.MAXPATHLEN - 1)
  | none => name.take (k.MAXPATHLEN - 1)

/-- Following the spec (section 4.1, PathResolver): with a destination the
result is `prefix + "/" + entry_path`, else `entry_path`. -/
def spec_resolve (pfx : Option Path) (entry_path : Path) : Path :=
  match pfx with
  | some p => p ++ ['/'] ++ entry_path
  | none => entry_path

/-- How the reader ends the stream of entries. -/
inductive EndSignal
  | clean
  | error
  deriving DecidableEq, Repr

/-- What `th_read` returns at the end: 1 for a clean end of archive, -1 for
a decoding error. -/
def EndSignal.code : EndSignal → Int
  | EndSignal.clean => 1
  | EndSignal.error => -1

/-- An archive as the reader presents it: the entries with their payloads,
and how the stream ends once they are used up. -/
structure Archive where
  items : List (Entry × List Nat)
  ending : EndSignal

/-- Modelled from the spec: `th_read` of libtar's block.c is not in the
source tree.  Section 6 (`next_entry`): it makes the next entry of the stream
the current one and returns 0, or returns the end signal when the entries
are used up. -/
def th_read (t : TAR) (items : List (Entry × List Nat)) (ending : EndSignal) : Int × TAR :=
  match items with
  | [] => (ending.code, t)
  | it :: _ => (0, { t with th_buf := it.1, payload := it.2 })

/-- How pass 1 ends: aborted by a failed dispatch, or the stream ran out
with `th_read` returning `i`, leaving the queue of deferred links. -/
inductive Pass1
  | aborted (w : World)
  | finished (i : Int) (queue : List symlink_entry) (w : World)

/-- Pass 1 of `tar_extract_all`: the loop `while ((i = th_read(t)) == 0)`
over the entries not read yet. -/
def pass1 (k : Consts) (pfx : Option Path) (ending : EndSignal) :
    List (Entry × List Nat) → TAR → World → List symlink_entry → Pass1
  | [], t0, w, queue => Pass1.finished (th_read t0 [] ending).1 queue w
  | it :: items, t0, w, queue =>
    let t : TAR := (th_read t0 (it :: items) ending).2
    let buf := resolved k pfx (th_get_pathname t)
    if TH_ISSYM t then
      let src_path := resolved k pfx (th_get_linkname t)
      let entry : symlink_entry :=
        { target := src_path.take (k.MAXPATHLEN - 1),
          linkname := buf.take (k.MAXPATHLEN - 1),
          mode := 0o700 }
      pass1 k pfx ending items t w (queue ++ [entry])
    else if TH_ISREG t ∨ TH_ISDIR t then
      let r := tar_extract_file k t w buf
      if r.1 ≠ 0 then Pass1.aborted r.2.2
      else pass1 k pfx ending items r.2.1 r.2.2 queue
    else pass1 k pfx ending items t w queue

/-- How a run ends: it returns a code, or it reaches a statement whose
behaviour C leaves undefined. -/
inductive Outcome
  | ret (code : Int) (w : World)
  | undefined (w : World)

/-- The code a run returned, if it returned. -/
def Outcome.code : Outcome → Option Int
  | Outcome.ret c _ => some c
  | Outcome.undefined _ => none

/-- The world a run left behind. -/
def Outcome.world : Outcome → World
  | Outcome.ret _ w => w
  | Outcome.undefined w => w

/-- Pass 2 of `tar_extract_all`: the loop `while (cur)` over the queue, then
the final `return (i == 1 ? 0 : -1)`.  When an `fwrite` comes back short the
body closes both streams, moves `cur` on and runs `continue`, which belongs
to the inner `while`: the next statement executed is `fread` on the closed
`src_fp`, where the behaviour is undefined. -/
def pass2 (i : Int) : List symlink_entry → World → Outcome
  | [], w => Outcome.ret (if i = 1 then 0 else -1) w
  | cur :: next, w =>
    let w0 := w.emit (Event.copy cur.target cur.linkname)
    let sf := sys_fopen_r w0 cur.target
    match sf.1 with
    | none => pass2 i next sf.2
    | some src_fp =>
      let df := sys_fopen_w sf.2 cur.linkname
      match df.1 with
      | none => pass2 i next df.2
      | some dst_fp =>
        let cp := copy_stream src_fp dst_fp df.2
        if cp.1 then
          let ch := sys_chmod cp.2 cur.linkname cur.mode
          let st := sys_stat ch.2 cur.linkname
          pass2 i next st.2
        else Outcome.undefined cp.2

/-- The function `tar_extract_all`. -/
def tar_extract_all (k : Consts) (t : TAR) (a : Archive) (w : World) (pfx : Option Path) :
    Outcome :=
  match pass1 k pfx a.ending a.items t w [] with
  | Pass1.aborted w1 => Outcome.ret (-1) w1
  | Pass1.finished i queue w1 => pass2 i queue w1

/-! ## Reading the log -/

/-- The content of the regular file stored under `p`, if there is one. -/
def dataAt (fs : Path → Option Node) (p : Path) : Option (List Nat) :=
  match fs p with
  | some (Node.file d _) => some d
  | _ => none

/-- The name `p` is taken: `.` and `/` always are. -/
def present (fs : Path → Option Node) (p : Path) : Prop :=
  p = ['.'] ∨ p = ['/'] ∨ fs p ≠ none

instance (fs : Path → Option Node) (p : Path) : Decidable (present fs p) := by
  unfold present
  infer_instance

/-- The permission bits `stat(p)` reports (links are followed). -/
def modeAt (fs : Path → Option Node) (p : Path) : Option Nat :=
  match follow fs SYMLOOP_MAX p with
  | some q =>
    match fs q with
    | some n => n.mode
    | none => none
  | none => none

/-- A directory entry for `p` finds its place taken: the directories above
`p` and `p` itself are present, and `p` leads (through links) to an object. -/
def Settled (fs : Path → Option Node) (p : Path) : Prop :=
  (∀ d ∈ dirChain (dirname p), present fs d) ∧ present fs p ∧
  ∃ q nd, follow fs SYMLOOP_MAX p = some q ∧ fs q = some nd

/-- What reading the name `p` yields: the content of the regular file that
`p` leads to (links are followed). -/
def readAt (fs : Path → Option Node) (p : Path) : Option (List Nat) :=
  match follow fs SYMLOOP_MAX p with
  | some q => dataAt fs q
  | none => none

/-- The name `p` can be opened for writing: it leads to a regular file, or to
a free name in an existing directory. -/
def Writable (fs : Path → Option Node) (p : Path) : Prop :=
  ∃ q, follow fs SYMLOOP_MAX p = some q ∧
    ((∃ d m, fs q = some (Node.file d m)) ∨ (fs q = none ∧ parentErr fs q = none))

/-- From `w` to `w1` the table of outside failures and the symbolic links are
the same. -/
def Keeps (w w1 : World) : Prop :=
  w1.deny = w.deny ∧ ∀ n p, follow w1.fs n p = follow w.fs n p

/-- An event that is a filesystem call other than `mkdir` and `unlink`, or
data reaching a file. -/
def Quiet (e : Event) : Prop :=
  match e with
  | Event.sys c _ => c ≠ Sys.mkdir ∧ c ≠ Sys.unlink
  | Event.wrote _ _ => True
  | _ => False

/-- From `w` to `w1` the log grew by quiet events only. -/
def Quietly (w w1 : World) : Prop :=
  ∃ evs, w1.log = w.log ++ evs ∧ ∀ e ∈ evs, Quiet e

/-- The record pass 1 queues for a Symlink entry. -/
def recordOf (k : Consts) (pfx : Option Path) (e : Entry) : symlink_entry :=
  { target := resolved k pfx e.linkname, linkname := resolved k pfx e.path, mode := 0o700 }

/-- The sizes of the payload requests in a log, in order. -/
def reads (l : List Event) : List Nat :=
  l.filterMap (fun e => match e with
    | Event.readfunc n => some n
    | _ => none)

/-- The data written to files in a log, in order. -/
def writes (l : List Event) : List (Path × List Nat) :=
  l.filterMap (fun e => match e with
    | Event.wrote p d => some (p, d)
    | _ => none)

/-- The materializers entered in a log, in order. -/
def calls (l : List Event) : List (Materializer × Path) :=
  l.filterMap (fun e => match e with
    | Event.call m p => some (m, p)
    | _ => none)

/-- The copies attempted by pass 2 in a log, in order. -/
def copies (l : List Event) : List (Path × Path) :=
  l.filterMap (fun e => match e with
    | Event.copy a b => some (a, b)
    | _ => none)

/-- The filesystem calls of kind `c` in a log, in order. -/
def sysCalls (c : Sys) (l : List Event) : List Path :=
  l.filterMap (fun e => match e with
    | Event.sys c1 p => if c1 = c then some p else none
    | _ => none)

/-! ## Sample inputs -/

/-- An empty filesystem on which no call is made to fail, umask 022. -/
def emptyWorld : World :=
  { fs := fun _ => none, deny := fun _ _ _ => false, umask := 0o22, errno := Errno.E0, log := [] }

/-- A handle with the given option bits and current entry, its payload unread. -/
def handleOn (options : Nat) (it : Entry × List Nat) : TAR :=
  { options := options, th_buf := it.1, payload := it.2 }

/-- A Regular entry with its content padded with zeros to the block size. -/
def regularItem (p : Path) (content : List Nat) (mode : Nat) : Entry × List Nat :=
  ({ path := p, typeflag := FileType.Regular, mode := mode, size := content.length,
     linkname := [], devmajor := 0, devminor := 0 },
   content ++ List.replicate (align_up content.length 512 - content.length) 0)

/-- An entry without payload. -/
def plainItem (ty : FileType) (p linkname : Path) (mode : Nat) : Entry × List Nat :=
  ({ path := p, typeflag := ty, mode := mode, size := 0,
     linkname := linkname, devmajor := 0, devminor := 0 }, [])

/-- A filesystem whose only object is the symbolic link `l`, which points to
the missing name `gone`. -/
def danglingWorld : World :=
  { emptyWorld with fs := fun p => if p = ['l'] then some (Node.symlink ['g', 'o', 'n', 'e']) else none }

/-- A filesystem whose only object is the regular file `foo`. -/
def fooWorld : World :=
  { emptyWorld with fs := fun p => if p = ['f', 'o', 'o'] then some (Node.file [1] 0o644) else none }

/-- A Regular entry of size 3 whose payload is missing from the stream. -/
def truncatedItem : Entry × List Nat :=
  ({ path := ['t'], typeflag := FileType.Regular, mode := 0o644, size := 3,
     linkname := [], devmajor := 0, devminor := 0 }, [])

/-- An empty filesystem on which every `fwrite` to the file `p` fails. -/
def writeFailWorld (p : Path) : World :=
  { emptyWorld with deny := fun _ c q => decide (c = Sys.fwrite ∧ q = p) }

/-- The 3-byte file `b`, then the links `a1` and `a2` to it. -/
def twoLinksArchive : Archive :=
  ⟨[regularItem ['b'] [1, 2, 3] 0o644, plainItem FileType.Symlink ['a', '1'] ['b'] 0o777,
    plainItem FileType.Symlink ['a', '2'] ['b'] 0o777], EndSignal.clean⟩

/-- The 3-byte file `b`, then the link `a` to it. -/
def oneLinkArchive : Archive :=
  ⟨[regularItem ['b'] [1, 2, 3] 0o644, plainItem FileType.Symlink ['a'] ['b'] 0o777], EndSignal.clean⟩

/-- The 3-byte file `b`, then the link `d/a` to it; no entry creates `d`. -/
def nestedLinkArchive : Archive :=
  ⟨[regularItem ['b'] [1, 2, 3] 0o644,
    plainItem FileType.Symlink ['d', '/', 'a'] ['b'] 0o777], EndSignal.clean⟩

/-- A handle before the first `th_read`, without option bits. -/
def freshHandle : TAR := handleOn 0 (plainItem FileType.Regular [] [] 0)

/-! ## Block padding -/

theorem align_up_dvd (val align : Nat) (h : 0 < align) : align ∣ align_up val align := by
  unfold align_up
  by_cases hr : val % align = 0
  · simp [hr, Nat.dvd_of_mod_eq_zero hr]
  · simp only [ne_eq, hr, not_false_eq_true, if_true]
    have hlt : val % align < align := Nat.mod_lt _ h
    refine ⟨val / align + 1, ?_⟩
    have hd := Nat.div_add_mod val align
    rw [Nat.mul_add, Nat.mul_one]
    omega

theorem align_up_ge (val align : Nat) : val ≤ align_up val align := by
  unfold align_up
  by_cases hr : val % align = 0
  · simp [hr]
  · simp only [ne_eq, hr, not_false_eq_true, if_true]
    omega

theorem align_up_least (val align m : Nat) (h : 0 < align) (hd : align ∣ m) (hm : val ≤ m) :
    align_up val align ≤ m := by
  unfold align_up
  by_cases hr : val % align = 0
  · simp [hr, hm]
  · simp only [ne_eq, hr, not_false_eq_true, if_true]
    obtain ⟨c, rfl⟩ := hd
    have hlt : val % align < align := Nat.mod_lt _ h
    have hdm := Nat.div_add_mod val align
    have hc : val / align < c := by
      by_contra hcon
      have hle : c ≤ val / align := Nat.le_of_not_lt hcon
      have : align * c ≤ align * (val / align) := Nat.mul_le_mul_left _ hle
      omega
    have : align * (val / align + 1) ≤ align * c := Nat.mul_le_mul_left _ hc
    rw [Nat.mul_add, Nat.mul_one] at this
    omega

/-! ## What the filesystem calls do to the log and to a file -/

theorem openTrunc_log (c : Sys) (w : World) (p : Path) :
    (openTrunc c w p).2.log = w.log ++ [Event.sys c p] := by
  unfold openTrunc
  simp only
  split
  · rfl
  · split
    · rfl
    · split <;> try rfl
      split <;> rfl

theorem openTrunc_some (c : Sys) (w : World) (p q : Path) (h : (openTrunc c w p).1 = some q) :
    dataAt (openTrunc c w p).2.fs q = some [] := by
  unfold openTrunc at h ⊢
  simp only at h ⊢
  split at h
  · simp at h
  · rename_i hden
    simp only [hden]
    split at h
    · simp at h
    · split at h
      · simp only [Option.some.injEq] at h
        subst h
        simp [World.put, World.emit, dataAt]
      · simp at h
      · simp at h
      · split at h
        · simp at h
        · simp only [Option.some.injEq] at h
          subst h
          simp [World.put, World.emit, dataAt]

theorem put_chmod_dataAt (w : World) (q q1 : Path) (n : Node) (m : Nat) (d : List Nat)
    (hn : w.fs q1 = some n) (h : dataAt w.fs q = some d) :
    dataAt (w.put q1 (n.chmod m)).fs q = some d := by
  by_cases hq : q = q1
  · subst hq
    unfold dataAt at h
    rw [hn] at h
    cases n <;> simp_all [Node.chmod, dataAt, World.put]
  · simp only [dataAt, World.put, hq, if_false]
    exact h

theorem sys_chmod_dataAt (w : World) (p q : Path) (m : Nat) (d : List Nat)
    (h : dataAt w.fs q = some d) : dataAt (sys_chmod w p m).2.fs q = some d := by
  unfold sys_chmod
  simp only
  split
  · exact h
  · split
    · exact h
    · split
      · rename_i hn
        exact put_chmod_dataAt (w.emit _) q _ _ m d hn h
      · exact h

theorem sys_chmod_log (w : World) (p : Path) (m : Nat) :
    (sys_chmod w p m).2.log = w.log ++ [Event.sys Sys.chmod p] := by
  unfold sys_chmod
  simp only
  split
  · rfl
  · split
    · rfl
    · split <;> rfl

theorem sys_fchmod_dataAt (w : World) (fd : Option Path) (q : Path) (m : Nat) (d : List Nat)
    (h : dataAt w.fs q = some d) : dataAt (sys_fchmod w fd m).2.fs q = some d := by
  unfold sys_fchmod
  split
  · exact h
  · simp only
    split
    · exact h
    · split
      · rename_i hn
        exact put_chmod_dataAt (w.emit _) q _ _ m d hn h
      · exact h

theorem sys_fchmod_log (w : World) (fd : Option Path) (m : Nat) :
    reads (sys_fchmod w fd m).2.log = reads w.log ∧
    writes (sys_fchmod w fd m).2.log = writes w.log := by
  unfold sys_fchmod
  split
  · exact ⟨rfl, rfl⟩
  · simp only
    split
    · simp [reads, writes, World.emit, World.fail, List.filterMap_append]
    · split <;> simp [reads, writes, World.emit, World.fail, World.put, List.filterMap_append]

theorem createAt_log (c : Sys) (w : World) (p : Path) (n : Node) :
    (createAt c w p n).2.log = w.log ++ [Event.sys c p] := by
  unfold createAt
  simp only
  split
  · rfl
  · split
    · rfl
    · split
      · rfl
      · split <;> rfl

theorem mkdirs_log (ds : List Path) (w : World) :
    ∃ n, (mkdirs w ds).2.log = w.log ++ (ds.take n).map (fun d => Event.sys Sys.mkdir d) := by
  induction ds generalizing w with
  | nil => exact ⟨0, by simp [mkdirs]⟩
  | cons d ds ih =>
    unfold mkdirs
    simp only
    split
    · exact ⟨1, by simp [sys_mkdir, createAt_log]⟩
    · obtain ⟨n, hn⟩ := ih (sys_mkdir w d 0o777).2
      refine ⟨n + 1, ?_⟩
      rw [hn]
      simp [sys_mkdir, createAt_log]

theorem reads_append (l1 l2 : List Event) : reads (l1 ++ l2) = reads l1 ++ reads l2 := by
  simp [reads, List.filterMap_append]

theorem writes_append (l1 l2 : List Event) : writes (l1 ++ l2) = writes l1 ++ writes l2 := by
  simp [writes, List.filterMap_append]

theorem reads_mkdir (ds : List Path) :
    reads (ds.map (fun d => Event.sys Sys.mkdir d)) = [] := by
  induction ds with
  | nil => rfl
  | cons d ds ih => simp [reads]

theorem writes_mkdir (ds : List Path) :
    writes (ds.map (fun d => Event.sys Sys.mkdir d)) = [] := by
  induction ds with
  | nil => rfl
  | cons d ds ih => simp [writes]

theorem mkdirs_for_log (w : World) (p : Path) :
    reads (mkdirs_for w p).2.log = reads w.log ∧ writes (mkdirs_for w p).2.log = writes w.log := by
  obtain ⟨n, hn⟩ := mkdirs_log (dirChain (dirname p)) w
  unfold mkdirs_for mkdirhier
  rw [hn, reads_append, writes_append, reads_mkdir, writes_mkdir]
  simp

theorem regfile_open_log (w : World) (p : Path) :
    reads (regfile_open w p).2.2.log = reads w.log ∧
    writes (regfile_open w p).2.2.log = writes w.log := by
  have h1 : ∀ w1 : World, reads (sys_open w1 p).2.log = reads w1.log ∧
      writes (sys_open w1 p).2.log = writes w1.log := by
    intro w1
    simp [sys_open, openTrunc_log, reads_append, writes_append, reads, writes]
  unfold regfile_open
  simp only
  split
  · split
    · have := mkdirs_for_log (sys_open w p).2 p
      exact ⟨this.1.trans (h1 w).1, this.2.trans (h1 w).2⟩
    · split
      all_goals
        have h2 := h1 (mkdirs_for (sys_open w p).2 p).2
        have h3 := mkdirs_for_log (sys_open w p).2 p
        exact ⟨h2.1.trans (h3.1.trans (h1 w).1), h2.2.trans (h3.2.trans (h1 w).2)⟩
  · exact h1 w

theorem regfile_open_some (w : World) (p q : Path) (h : (regfile_open w p).2.1 = some q) :
    (regfile_open w p).1 = true ∧ dataAt (regfile_open w p).2.2.fs q = some [] := by
  unfold regfile_open at h ⊢
  simp only at h ⊢
  split at h
  · rename_i h1
    simp only [h1, and_self, if_true]
    split at h
    · simp at h
    · rename_i h2
      simp only [h2, if_false]
      split at h
      · simp at h
      · rename_i h3
        simp only [h3, if_false, true_and]
        exact openTrunc_some _ _ _ _ h
  · rename_i h1
    simp only [h1, if_false, true_and]
    exact openTrunc_some _ _ _ _ h

theorem appendTo_spec (c : Sys) (w : World) (q : Path) (d data : List Nat)
    (h : dataAt w.fs q = some d) :
    ((appendTo c w (some q) data).1 = -1 ∧
      reads (appendTo c w (some q) data).2.log = reads w.log ∧
      writes (appendTo c w (some q) data).2.log = writes w.log) ∨
    ((appendTo c w (some q) data).1 = data.length ∧
      dataAt (appendTo c w (some q) data).2.fs q = some (d ++ data) ∧
      reads (appendTo c w (some q) data).2.log = reads w.log ∧
      writes (appendTo c w (some q) data).2.log = writes w.log ++ [(q, data)]) := by
  unfold appendTo
  simp only
  split
  · left
    simp [reads, writes, World.emit, World.fail, List.filterMap_append]
  · right
    unfold dataAt at h
    split at h
    · rename_i hfs
      simp only [Option.some.injEq] at h
      subst h
      simp [hfs, reads, writes, World.emit, World.put, dataAt, List.filterMap_append]
    · simp at h

theorem regfile_body_spec (k : Consts) (t : TAR) (w : World) (filename q : Path)
    (mode size : Nat) (h : dataAt w.fs q = some []) :
    reads (regfile_body k t w filename (some q) mode size).2.2.log
      = reads w.log ++ [align_up size k.T_BLOCKSIZE] ∧
    (regfile_body k t w filename (some q) mode size).2.1.payload
      = t.payload.drop (align_up size k.T_BLOCKSIZE) ∧
    ((regfile_body k t w filename (some q) mode size).1 = 0 →
      writes (regfile_body k t w filename (some q) mode size).2.2.log
        = writes w.log ++ [(q, (t.payload.take (align_up size k.T_BLOCKSIZE)).take size)] ∧
      ((t.payload.take (align_up size k.T_BLOCKSIZE)).take size).length = size ∧
      dataAt (regfile_body k t w filename (some q) mode size).2.2.fs q
        = some ((t.payload.take (align_up size k.T_BLOCKSIZE)).take size)) := by
  have hw0 : dataAt (w.emit (Event.readfunc (align_up size k.T_BLOCKSIZE))).fs q = some [] := h
  have hrd : reads (w.emit (Event.readfunc (align_up size k.T_BLOCKSIZE))).log
      = reads w.log ++ [align_up size k.T_BLOCKSIZE] := by
    simp [World.emit, reads_append, reads]
  have hwr0 : writes (w.emit (Event.readfunc (align_up size k.T_BLOCKSIZE))).log
      = writes w.log := by
    simp [World.emit, writes_append, writes]
  have hap := appendTo_spec Sys.write (w.emit (Event.readfunc (align_up size k.T_BLOCKSIZE))) q []
    ((t.payload.take (align_up size k.T_BLOCKSIZE)).take size) hw0
  unfold regfile_body
  simp only [readfunc, sys_write]
  split
  · refine ⟨hrd, rfl, ?_⟩
    intro h0
    simp at h0
  · rename_i hlen
    split
    · rcases hap with ⟨_, hr, _⟩ | ⟨_, _, hr, _⟩
      all_goals
        refine ⟨by rw [← hrd, ← hr]; rfl, rfl, ?_⟩
        intro h0
        simp at h0
    · rename_i hsz
      rcases hap with ⟨hm1, _, _⟩ | ⟨hn, hd, hr, hwr⟩
      · exfalso
        apply hsz
        rw [hm1] at hsz
        omega
      · have hlen2 : ((t.payload.take (align_up size k.T_BLOCKSIZE)).take size).length = size := by
          have := not_not.mp hsz
          rw [hn] at this
          exact_mod_cast this
        simp only [List.nil_append] at hd
        have hfc := sys_fchmod_log
          (appendTo Sys.write (w.emit (Event.readfunc (align_up size k.T_BLOCKSIZE))) (some q)
            ((t.payload.take (align_up size k.T_BLOCKSIZE)).take size)).2 (some q) (mode &&& 0o7777)
        have hfd := sys_fchmod_dataAt
          (appendTo Sys.write (w.emit (Event.readfunc (align_up size k.T_BLOCKSIZE))) (some q)
            ((t.payload.take (align_up size k.T_BLOCKSIZE)).take size)).2 (some q) q (mode &&& 0o7777) _ hd
        split
        · split
          · refine ⟨?_, rfl, ?_⟩
            · rw [sys_chmod_log, reads_append, hfc.1, hr, hrd]
              simp [reads]
            · intro h0
              simp at h0
          · refine ⟨?_, rfl, fun _ => ⟨?_, hlen2, ?_⟩⟩
            · rw [sys_chmod_log, reads_append, hfc.1, hr, hrd]
              simp [reads]
            · rw [sys_chmod_log, writes_append, hfc.2, hwr, hwr0]
              simp [writes]
            · exact sys_chmod_dataAt _ _ _ _ _ hfd
        · refine ⟨?_, rfl, fun _ => ⟨?_, hlen2, hfd⟩⟩
          · rw [hfc.1, hr, hrd]
          · rw [hfc.2, hwr, hwr0]

/-! ## C1: block padding of regular files -/

/-- C1: for a regular-file entry of size `s` whose destination is opened (at
once, or after the directories above it were created), `tar_extract_regfile`
makes exactly one payload request, of `align_up s T_BLOCKSIZE` bytes, which
is the least multiple of the block size that is at least `s`; and when it
returns 0 it has written exactly one piece of data to the destination, the
first `s` bytes of what it read, which is then the whole content of the
file. -/
theorem tar_extract_regfile_block_padding (k : Consts) (t : TAR) (w : World)
    (realname : Option Path) (q : Path) (hB : 0 < k.T_BLOCKSIZE)
    (hopen : (regfile_open
        (w.emit (Event.call Materializer.regfile (realname.getD (th_get_pathname t))))
        (realname.getD (th_get_pathname t))).2.1 = some q) :
    (k.T_BLOCKSIZE ∣ align_up (th_get_size t) k.T_BLOCKSIZE ∧
      th_get_size t ≤ align_up (th_get_size t) k.T_BLOCKSIZE ∧
      ∀ m, k.T_BLOCKSIZE ∣ m → th_get_size t ≤ m → align_up (th_get_size t) k.T_BLOCKSIZE ≤ m) ∧
    reads (tar_extract_regfile k t w realname).2.2.log
      = reads w.log ++ [align_up (th_get_size t) k.T_BLOCKSIZE] ∧
    (tar_extract_regfile k t w realname).2.1.payload
      = t.payload.drop (align_up (th_get_size t) k.T_BLOCKSIZE) ∧
    ((tar_extract_regfile k t w realname).1 = 0 →
      writes (tar_extract_regfile k t w realname).2.2.log
        = writes w.log ++
          [(q, (t.payload.take (align_up (th_get_size t) k.T_BLOCKSIZE)).take (th_get_size t))] ∧
      ((t.payload.take (align_up (th_get_size t) k.T_BLOCKSIZE)).take (th_get_size t)).length
        = th_get_size t ∧
      dataAt (tar_extract_regfile k t w realname).2.2.fs q
        = some ((t.payload.take (align_up (th_get_size t) k.T_BLOCKSIZE)).take (th_get_size t))) := by
  refine ⟨⟨align_up_dvd _ _ hB, align_up_ge _ _, fun m hd hm => align_up_least _ _ m hB hd hm⟩, ?_⟩
  obtain ⟨hgo, hdata⟩ := regfile_open_some _ _ _ hopen
  have hlog := regfile_open_log
    (w.emit (Event.call Materializer.regfile (realname.getD (th_get_pathname t))))
    (realname.getD (th_get_pathname t))
  have hcall : reads (w.emit (Event.call Materializer.regfile
      (realname.getD (th_get_pathname t)))).log = reads w.log ∧
      writes (w.emit (Event.call Materializer.regfile
      (realname.getD (th_get_pathname t)))).log = writes w.log := by
    simp [World.emit, reads_append, writes_append, reads, writes]
  have hb := regfile_body_spec k t _ (realname.getD (th_get_pathname t)) q
    (th_get_mode t) (th_get_size t) hdata
  unfold tar_extract_regfile
  simp only [hgo, hopen, if_true]
  rw [hlog.1, hlog.2, hcall.1, hcall.2] at hb
  exact hb

/-- C1, witness: a 3-byte file `b` on an empty filesystem; 512 bytes are
requested and the 3 content bytes are written. -/
theorem tar_extract_regfile_block_padding_witness :
    0 < linux.T_BLOCKSIZE ∧
    (regfile_open (emptyWorld.emit (Event.call Materializer.regfile ['b'])) ['b']).2.1
      = some ['b'] ∧
    reads (tar_extract_regfile linux (handleOn 0 (regularItem ['b'] [1, 2, 3] 0o644))
      emptyWorld (some ['b'])).2.2.log = [512] ∧
    writes (tar_extract_regfile linux (handleOn 0 (regularItem ['b'] [1, 2, 3] 0o644))
      emptyWorld (some ['b'])).2.2.log = [(['b'], [1, 2, 3])] :=
  ⟨by decide, by decide,
   (tar_extract_regfile_block_padding linux (handleOn 0 (regularItem ['b'] [1, 2, 3] 0o644))
      emptyWorld (some ['b']) ['b'] (by decide) (by decide)).2.1,
   ((tar_extract_regfile_block_padding linux (handleOn 0 (regularItem ['b'] [1, 2, 3] 0o644))
      emptyWorld (some ['b']) ['b'] (by decide) (by decide)).2.2.2 (by decide)).1⟩

/-! ## C2: the overwrite guard of `tar_extract_file` -/

theorem overwrite_guard (k : Consts) (t : TAR) (w : World) (realname : Path)
    (hopt : t.options &&& k.TAR_NOOVERWRITE ≠ 0) (hex : w.fs realname ≠ none) :
    (tar_extract_file k t w realname).1 = -1 ∧
    (tar_extract_file k t w realname).2.2.errno = Errno.EEXIST ∧
    (tar_extract_file k t w realname).2.1 = t ∧
    (tar_extract_file k t w realname).2.2.fs = w.fs ∧
    (tar_extract_file k t w realname).2.2.log = w.log ++ [Event.sys Sys.lstat realname] := by
  unfold tar_extract_file sys_lstat
  simp only [hopt, ne_eq, not_false_eq_true, if_true]
  by_cases hden : w.denied Sys.lstat realname = true
  · simp [hden, World.fail, World.emit]
  · simp only [hden, if_false]
    cases hfs : w.fs realname with
    | none => exact absurd hfs hex
    | some n => simp [World.fail, World.emit]

/-- C2: with `TAR_NOOVERWRITE` set and a name present at `realname` (the name
itself, a link is not followed), `tar_extract_file` returns -1 with `errno`
`EEXIST` for an entry of any type; the only call it makes is the `lstat`, so
no materializer is entered, no payload is requested, the handle is as before
and the filesystem is unchanged. -/
theorem tar_extract_file_nooverwrite (k : Consts) (t : TAR) (w : World) (realname : Path)
    (hopt : t.options &&& k.TAR_NOOVERWRITE ≠ 0) (hex : w.fs realname ≠ none) :
    (tar_extract_file k t w realname).1 = -1 ∧
    (tar_extract_file k t w realname).2.2.errno = Errno.EEXIST ∧
    (tar_extract_file k t w realname).2.1 = t ∧
    (tar_extract_file k t w realname).2.2.fs = w.fs ∧
    (tar_extract_file k t w realname).2.2.log = w.log ++ [Event.sys Sys.lstat realname] := by
  have hst : (sys_lstat w realname).1 = 0 ∨ (sys_lstat w realname).2.errno ≠ Errno.ENOENT := by
    unfold sys_lstat
    by_cases hden : w.denied Sys.lstat realname = true
    · right
      simp [hden, World.fail]
    · left
      cases hfs : w.fs realname with
      | none => exact absurd hfs hex
      | some n => simp [hden]
  have hw : (sys_lstat w realname).2.fs = w.fs ∧
      (sys_lstat w realname).2.log = w.log ++ [Event.sys Sys.lstat realname] := by
    unfold sys_lstat
    by_cases hden : w.denied Sys.lstat realname = true
    · simp [hden, World.fail, World.emit]
    · cases hfs : w.fs realname with
      | none => exact absurd hfs hex
      | some n => simp [hden, World.emit]
  have heq : tar_extract_file k t w realname
      = (-1, t, (sys_lstat w realname).2.fail Errno.EEXIST) := by
    unfold tar_extract_file
    simp only [hopt, ne_eq, not_false_eq_true, if_true, hst]
  rw [heq]
  exact ⟨rfl, rfl, rfl, hw.1, hw.2⟩

/-- C2, witness: the name `l` is a dangling symbolic link (`stat` fails on
it); extracting a Regular entry there with `TAR_NOOVERWRITE` is refused. -/
theorem tar_extract_file_nooverwrite_witness :
    (handleOn 4 (regularItem ['l'] [7] 0o644)).options &&& linux.TAR_NOOVERWRITE ≠ 0 ∧
    danglingWorld.fs ['l'] ≠ none ∧
    (sys_stat danglingWorld ['l']).1 = -1 ∧
    (tar_extract_file linux (handleOn 4 (regularItem ['l'] [7] 0o644)) danglingWorld ['l']).1 = -1 ∧
    (tar_extract_file linux (handleOn 4 (regularItem ['l'] [7] 0o644)) danglingWorld
      ['l']).2.2.errno = Errno.EEXIST :=
  ⟨by decide, by decide, by decide,
   (tar_extract_file_nooverwrite linux (handleOn 4 (regularItem ['l'] [7] 0o644)) danglingWorld
      ['l'] (by decide) (by decide)).1,
   (tar_extract_file_nooverwrite linux (handleOn 4 (regularItem ['l'] [7] 0o644)) danglingWorld
      ['l'] (by decide) (by decide)).2.1⟩

/-! ## Pass 1 -/

theorem regfile_body_options (k : Consts) (t : TAR) (w : World) (filename : Path)
    (fd : Option Path) (mode size : Nat) :
    (regfile_body k t w filename fd mode size).2.1.options = t.options := by
  unfold regfile_body
  simp only [readfunc]
  split
  · rfl
  · split
    · rfl
    · split
      · split <;> rfl
      · rfl

theorem tar_extract_file_options (k : Consts) (t : TAR) (w : World) (realname : Path) :
    (tar_extract_file k t w realname).2.1.options = t.options := by
  have hd : ∀ w1 : World, (dispatch k t w1 realname).2.1.options = t.options := by
    intro w1
    unfold dispatch
    split
    · rfl
    · split
      · rfl
      · split
        · rfl
        · split
          · rfl
          · split
            · rfl
            · split
              · rfl
              · unfold tar_extract_regfile
                simp only
                split
                · exact regfile_body_options _ _ _ _ _ _ _
                · rfl
  unfold tar_extract_file
  simp only
  split
  · split
    · rfl
    · exact hd _
  · exact hd _

theorem pass1_cons (k : Consts) (pfx : Option Path) (ending : EndSignal)
    (it : Entry × List Nat) (items : List (Entry × List Nat)) (t0 : TAR) (w : World)
    (queue : List symlink_entry) :
    pass1 k pfx ending (it :: items) t0 w queue =
      if TH_ISSYM { t0 with th_buf := it.1, payload := it.2 } then
        pass1 k pfx ending items { t0 with th_buf := it.1, payload := it.2 } w
          (queue ++ [{ target := (resolved k pfx it.1.linkname).take (k.MAXPATHLEN - 1),
                       linkname := (resolved k pfx it.1.path).take (k.MAXPATHLEN - 1),
                       mode := 0o700 }])
      else if TH_ISREG { t0 with th_buf := it.1, payload := it.2 } ∨
          TH_ISDIR { t0 with th_buf := it.1, payload := it.2 } then
        if (tar_extract_file k { t0 with th_buf := it.1, payload := it.2 } w
            (resolved k pfx it.1.path)).1 ≠ 0 then
          Pass1.aborted (tar_extract_file k { t0 with th_buf := it.1, payload := it.2 } w
            (resolved k pfx it.1.path)).2.2
        else
          pass1 k pfx ending items
            (tar_extract_file k { t0 with th_buf := it.1, payload := it.2 } w
              (resolved k pfx it.1.path)).2.1
            (tar_extract_file k { t0 with th_buf := it.1, payload := it.2 } w
              (resolved k pfx it.1.path)).2.2 queue
      else pass1 k pfx ending items { t0 with th_buf := it.1, payload := it.2 } w queue := by
  rw [pass1]
  rfl

theorem pass1_options (k : Consts) (pfx : Option Path) (ending : EndSignal)
    (items : List (Entry × List Nat)) (t t1 : TAR) (w : World) (queue : List symlink_entry)
    (h : t.options = t1.options) :
    pass1 k pfx ending items t w queue = pass1 k pfx ending items t1 w queue := by
  cases items with
  | nil => rfl
  | cons it items =>
    have ht : ({ t with th_buf := it.1, payload := it.2 } : TAR)
        = { t1 with th_buf := it.1, payload := it.2 } := by
      cases t
      cases t1
      simp_all
    simp only [pass1_cons, ht]

theorem pass1_append (k : Consts) (pfx : Option Path) (ending : EndSignal)
    (l1 l2 : List (Entry × List Nat)) (t : TAR) (w : World) (queue : List symlink_entry) :
    pass1 k pfx ending (l1 ++ l2) t w queue =
      match pass1 k pfx ending l1 t w queue with
      | Pass1.aborted w1 => Pass1.aborted w1
      | Pass1.finished _ q1 w1 => pass1 k pfx ending l2 t w1 q1 := by
  induction l1 generalizing t w queue with
  | nil => simp [pass1]
  | cons it l1 ih =>
    simp only [List.cons_append, pass1_cons]
    split
    · rw [ih]
      split
      · rfl
      · exact pass1_options k pfx ending l2 _ t _ _ rfl
    · split
      · split
        · rfl
        · rw [ih]
          split
          · rfl
          · exact pass1_options k pfx ending l2 _ t _ _
              ((tar_extract_file_options _ _ _ _).trans rfl)
      · rw [ih]
        split
        · rfl
        · exact pass1_options k pfx ending l2 _ t _ _ rfl

theorem pass1_reach (k : Consts) (pfx : Option Path) (ending : EndSignal)
    (pre rest : List (Entry × List Nat)) (t : TAR) (w w1 : World)
    (q q1 : List symlink_entry)
    (hpre : pass1 k pfx ending pre t w q = Pass1.finished ending.code q1 w1) :
    pass1 k pfx ending (pre ++ rest) t w q = pass1 k pfx ending rest t w1 q1 := by
  rw [pass1_append, hpre]

theorem pass1_skip (k : Consts) (pfx : Option Path) (ending : EndSignal) (e : Entry)
    (pl : List Nat) (rest : List (Entry × List Nat)) (t : TAR) (w : World)
    (q : List symlink_entry)
    (hty : e.typeflag = FileType.Hardlink ∨ e.typeflag = FileType.CharDevice ∨
      e.typeflag = FileType.BlockDevice ∨ e.typeflag = FileType.Fifo) :
    pass1 k pfx ending ((e, pl) :: rest) t w q = pass1 k pfx ending rest t w q := by
  rw [pass1_cons]
  have h1 : TH_ISSYM { t with th_buf := e, payload := pl } = false := by
    rcases hty with h | h | h | h <;> simp [TH_ISSYM, h]
  have h2 : TH_ISREG { t with th_buf := e, payload := pl } = false := by
    rcases hty with h | h | h | h <;> simp [TH_ISREG, h]
  have h3 : TH_ISDIR { t with th_buf := e, payload := pl } = false := by
    rcases hty with h | h | h | h <;> simp [TH_ISDIR, h]
  simp only [h1, h2, h3, Bool.false_eq_true, if_false, or_self]
  exact pass1_options k pfx ending rest _ t _ _ rfl

theorem pass1_dispatch (k : Consts) (pfx : Option Path) (ending : EndSignal) (e : Entry)
    (pl : List Nat) (rest : List (Entry × List Nat)) (t : TAR) (w : World)
    (q : List symlink_entry)
    (hty : e.typeflag = FileType.Regular ∨ e.typeflag = FileType.Directory) :
    pass1 k pfx ending ((e, pl) :: rest) t w q =
      if (tar_extract_file k { t with th_buf := e, payload := pl } w
          (resolved k pfx e.path)).1 ≠ 0 then
        Pass1.aborted (tar_extract_file k { t with th_buf := e, payload := pl } w
          (resolved k pfx e.path)).2.2
      else
        pass1 k pfx ending rest t
          (tar_extract_file k { t with th_buf := e, payload := pl } w
            (resolved k pfx e.path)).2.2 q := by
  rw [pass1_cons]
  have h1 : TH_ISSYM { t with th_buf := e, payload := pl } = false := by
    rcases hty with h | h <;> simp [TH_ISSYM, h]
  have h2 : (TH_ISREG { t with th_buf := e, payload := pl } = true ∨
      TH_ISDIR { t with th_buf := e, payload := pl } = true) := by
    rcases hty with h | h
    · left
      simp [TH_ISREG, h]
    · right
      simp [TH_ISDIR, h]
  simp only [h1, h2, Bool.false_eq_true, if_false, if_true]
  split
  · rfl
  · exact pass1_options k pfx ending rest _ t _ _ ((tar_extract_file_options _ _ _ _).trans rfl)

/-! ## C6: what pass 1 dispatches -/

/-- C6, as stated, fails: the archive holds one Hardlink entry whose target
is missing, so `tar_extract_hardlink` on it returns -1; `tar_extract_all`
nevertheless returns 0 and has entered no materializer. -/
theorem tar_extract_all_skips_hardlink :
    (tar_extract_hardlink
      (handleOn 0 (plainItem FileType.Hardlink ['h'] ['g', 'o', 'n', 'e'] 0o644))
      emptyWorld (some (resolved linux none ['h']))).1 = -1 ∧
    (tar_extract_all linux (handleOn 0 (plainItem FileType.Regular [] [] 0))
      ⟨[plainItem FileType.Hardlink ['h'] ['g', 'o', 'n', 'e'] 0o644], EndSignal.clean⟩
      emptyWorld none).code = some 0 ∧
    calls (tar_extract_all linux (handleOn 0 (plainItem FileType.Regular [] [] 0))
      ⟨[plainItem FileType.Hardlink ['h'] ['g', 'o', 'n', 'e'] 0o644], EndSignal.clean⟩
      emptyWorld none).world.log = [] := by
  decide

/-- C6, amended: in pass 1 of `tar_extract_all` a Regular or Directory entry
is dispatched to `tar_extract_file` with the resolved path, and a failure of
that dispatch ends the run with -1; a Hardlink, CharDevice, BlockDevice or
Fifo entry is not dispatched at all: the run is the one of the archive
without that entry. -/
theorem pass1_dispatches_regular_and_directory_only (k : Consts) (t : TAR)
    (pre rest : List (Entry × List Nat)) (e : Entry) (pl : List Nat) (ending : EndSignal)
    (w w1 : World) (pfx : Option Path) (q1 : List symlink_entry)
    (hpre : pass1 k pfx ending pre t w [] = Pass1.finished ending.code q1 w1) :
    ((e.typeflag = FileType.Hardlink ∨ e.typeflag = FileType.CharDevice ∨
        e.typeflag = FileType.BlockDevice ∨ e.typeflag = FileType.Fifo) →
      tar_extract_all k t ⟨pre ++ (e, pl) :: rest, ending⟩ w pfx
        = tar_extract_all k t ⟨pre ++ rest, ending⟩ w pfx) ∧
    ((e.typeflag = FileType.Regular ∨ e.typeflag = FileType.Directory) →
      pass1 k pfx ending (pre ++ (e, pl) :: rest) t w [] =
        (if (tar_extract_file k { t with th_buf := e, payload := pl } w1
            (resolved k pfx e.path)).1 ≠ 0 then
          Pass1.aborted (tar_extract_file k { t with th_buf := e, payload := pl } w1
            (resolved k pfx e.path)).2.2
        else
          pass1 k pfx ending rest t
            (tar_extract_file k { t with th_buf := e, payload := pl } w1
              (resolved k pfx e.path)).2.2 q1) ∧
      ((tar_extract_file k { t with th_buf := e, payload := pl } w1
            (resolved k pfx e.path)).1 ≠ 0 →
        tar_extract_all k t ⟨pre ++ (e, pl) :: rest, ending⟩ w pfx =
          Outcome.ret (-1) (tar_extract_file k { t with th_buf := e, payload := pl } w1
            (resolved k pfx e.path)).2.2)) := by
  refine ⟨fun hty => ?_, fun hty => ?_⟩
  · unfold tar_extract_all
    simp only
    rw [pass1_reach k pfx ending pre _ t w w1 [] q1 hpre,
      pass1_reach k pfx ending pre _ t w w1 [] q1 hpre, pass1_skip k pfx ending e pl rest t w1 q1 hty]
  · have hd := pass1_dispatch k pfx ending e pl rest t w1 q1 hty
    refine ⟨by rw [pass1_reach k pfx ending pre _ t w w1 [] q1 hpre, hd], fun hfail => ?_⟩
    unfold tar_extract_all
    simp only
    rw [pass1_reach k pfx ending pre _ t w w1 [] q1 hpre, hd]
    simp only [hfail, ne_eq, not_false_eq_true, if_true]

/-- C6, witness: after a Fifo entry (skipped), a Regular entry whose payload
is missing from the stream fails in dispatch and the run returns -1. -/
theorem pass1_dispatches_regular_and_directory_only_witness :
    pass1 linux none EndSignal.clean [plainItem FileType.Fifo ['p'] [] 0o644]
        (handleOn 0 (plainItem FileType.Regular [] [] 0)) emptyWorld []
      = Pass1.finished 1 [] emptyWorld ∧
    (tar_extract_all linux (handleOn 0 (plainItem FileType.Regular [] [] 0))
        ⟨[plainItem FileType.Fifo ['p'] [] 0o644] ++ truncatedItem :: [], EndSignal.clean⟩
        emptyWorld none).code = some (-1) := by
  have h := pass1_dispatches_regular_and_directory_only linux
    (handleOn 0 (plainItem FileType.Regular [] [] 0))
    [plainItem FileType.Fifo ['p'] [] 0o644] [] truncatedItem.1 truncatedItem.2
    EndSignal.clean emptyWorld emptyWorld none [] rfl
  refine ⟨rfl, ?_⟩
  have h2 := (h.2 (by decide)).2 (by decide)
  have h3 : (truncatedItem.1, truncatedItem.2) = truncatedItem := rfl
  rw [h3] at h2
  rw [h2]
  rfl

/-! ## C3: the Reject policy in a whole run -/

/-- C3, as stated, fails: `foo` exists, `TAR_NOOVERWRITE` is set and the
archive holds a Fifo entry named `foo`; the run returns 0, no conflict is
reported. -/
theorem tar_extract_all_reject_ignores_fifo :
    fooWorld.fs ['f', 'o', 'o'] ≠ none ∧
    (handleOn 4 (plainItem FileType.Regular [] [] 0)).options &&& linux.TAR_NOOVERWRITE ≠ 0 ∧
    (tar_extract_all linux (handleOn 4 (plainItem FileType.Regular [] [] 0))
      ⟨[plainItem FileType.Fifo ['f', 'o', 'o'] [] 0o644], EndSignal.clean⟩ fooWorld none).code = some 0 := by
  decide

/-- C3, amended: with `TAR_NOOVERWRITE` set, when pass 1 reaches a Regular or
Directory entry whose resolved path names an existing object, the run
returns -1 with `errno` `EEXIST` and the filesystem is as it was when the
entry was reached; a Hardlink, CharDevice, BlockDevice or Fifo entry in that
place is passed over: the filesystem stays as it was and the run goes on, no
conflict is reported. -/
theorem tar_extract_all_reject_conflict (k : Consts) (t : TAR)
    (pre rest : List (Entry × List Nat)) (e : Entry) (pl : List Nat) (ending : EndSignal)
    (w w1 : World) (pfx : Option Path) (q1 : List symlink_entry)
    (hopt : t.options &&& k.TAR_NOOVERWRITE ≠ 0)
    (hpre : pass1 k pfx ending pre t w [] = Pass1.finished ending.code q1 w1)
    (hex : w1.fs (resolved k pfx e.path) ≠ none) :
    ((e.typeflag = FileType.Regular ∨ e.typeflag = FileType.Directory) →
      ∃ w2, tar_extract_all k t ⟨pre ++ (e, pl) :: rest, ending⟩ w pfx = Outcome.ret (-1) w2 ∧
        w2.errno = Errno.EEXIST ∧ w2.fs = w1.fs) ∧
    ((e.typeflag = FileType.Hardlink ∨ e.typeflag = FileType.CharDevice ∨
        e.typeflag = FileType.BlockDevice ∨ e.typeflag = FileType.Fifo) →
      pass1 k pfx ending (pre ++ (e, pl) :: rest) t w [] = pass1 k pfx ending rest t w1 q1) := by
  refine ⟨fun hty => ?_, fun hty => ?_⟩
  · have hno := overwrite_guard k { t with th_buf := e, payload := pl } w1
      (resolved k pfx e.path) hopt hex
    refine ⟨(tar_extract_file k { t with th_buf := e, payload := pl } w1
      (resolved k pfx e.path)).2.2, ?_, hno.2.1, hno.2.2.2.1⟩
    unfold tar_extract_all
    simp only
    rw [pass1_reach k pfx ending pre _ t w w1 [] q1 hpre, pass1_dispatch k pfx ending e pl rest t w1 q1 hty]
    have h1 : (tar_extract_file k { t with th_buf := e, payload := pl } w1
        (resolved k pfx e.path)).1 ≠ 0 := by
      rw [hno.1]
      decide
    simp only [h1, ne_eq, not_false_eq_true, if_true]
  · rw [pass1_reach k pfx ending pre _ t w w1 [] q1 hpre, pass1_skip k pfx ending e pl rest t w1 q1 hty]

/-- C3, witness: `foo` exists and the archive holds a Regular entry `foo`;
with `TAR_NOOVERWRITE` the run returns -1 and `foo` keeps its content. -/
theorem tar_extract_all_reject_conflict_witness :
    (handleOn 4 (plainItem FileType.Regular [] [] 0)).options &&& linux.TAR_NOOVERWRITE ≠ 0 ∧
    fooWorld.fs (resolved linux none ['f', 'o', 'o']) ≠ none ∧
    ∃ w2, tar_extract_all linux (handleOn 4 (plainItem FileType.Regular [] [] 0))
        ⟨[] ++ regularItem ['f', 'o', 'o'] [9, 9] 0o600 :: [], EndSignal.clean⟩ fooWorld none
          = Outcome.ret (-1) w2 ∧
      w2.errno = Errno.EEXIST ∧ w2.fs = fooWorld.fs :=
  ⟨by decide, by decide,
   (tar_extract_all_reject_conflict linux (handleOn 4 (plainItem FileType.Regular [] [] 0))
      [] [] (regularItem ['f', 'o', 'o'] [9, 9] 0o600).1
      (regularItem ['f', 'o', 'o'] [9, 9] 0o600).2 EndSignal.clean fooWorld fooWorld none []
      (by decide) rfl (by decide)).1 (Or.inl rfl)⟩

/-! ## C9: the resolved path -/

theorem resolved_eq (k : Consts) (pfx : Option Path) (name : Path) :
    resolved k pfx name = (spec_resolve pfx name).take (k.MAXPATHLEN - 1) := by
  cases pfx <;> simp [resolved, spec_resolve]

theorem follow_not_link (fs : Path → Option Node) (n : Nat) (p q : Path)
    (h : follow fs n p = some q) : ∀ tgt, fs q ≠ some (Node.symlink tgt) := by
  induction n generalizing p with
  | zero => simp [follow] at h
  | succ n ih =>
    unfold follow at h
    split at h
    · exact ih _ h
    · rename_i hne
      simp only [Option.some.injEq] at h
      subst h
      intro tgt htgt
      exact hne tgt htgt

theorem follow_put_chmod (fs : Path → Option Node) (q : Path) (nd : Node) (m : Nat)
    (hq : fs q = some nd) (hnl : ∀ tgt, nd ≠ Node.symlink tgt) (n : Nat) (p : Path) :
    follow (fun x => if x = q then some (nd.chmod m) else fs x) n p = follow fs n p := by
  induction n generalizing p with
  | zero => rfl
  | succ n ih =>
    unfold follow
    by_cases hp : p = q
    · subst hp
      simp only [if_true, hq]
      cases nd <;> simp_all [Node.chmod]
    · simp only [hp, if_false]
      split <;> simp_all

theorem chmod_mode (nd : Node) (m : Nat) (hnl : ∀ tgt, nd ≠ Node.symlink tgt) :
    (nd.chmod m).mode = some (m &&& 0o7777) := by
  cases nd <;> simp_all [Node.chmod, Node.mode]

theorem parentErr_ne_EEXIST (fs : Path → Option Node) (p : Path) :
    parentErr fs p ≠ some Errno.EEXIST := by
  unfold parentErr
  simp only
  split
  · simp
  · split
    · simp
    · split
      · simp
      · split <;> simp

theorem createAt_cases (c : Sys) (w : World) (p : Path) (nd : Node)
    (hden : w.denied c p = false) :
    ((createAt c w p nd).1 = 0 ∧ ¬ present w.fs p ∧
      (createAt c w p nd).2.fs = (fun x => if x = p then some nd else w.fs x)) ∨
    ((createAt c w p nd).1 = -1 ∧ (createAt c w p nd).2.fs = w.fs ∧
      ((createAt c w p nd).2.errno = Errno.EEXIST ↔ present w.fs p)) := by
  unfold createAt
  simp only [hden, Bool.false_eq_true, if_false]
  split
  · right
    rename_i h
    refine ⟨rfl, rfl, ?_⟩
    simp only [World.fail, true_iff]
    rcases h with h | h
    · exact Or.inl h
    · exact Or.inr (Or.inl h)
  · rename_i hsp
    split
    · right
      rename_i hfs
      refine ⟨rfl, rfl, ?_⟩
      simp only [World.fail, true_iff]
      exact Or.inr (Or.inr (by simp [hfs]))
    · rename_i hfs
      split
      · right
        rename_i e he
        refine ⟨rfl, rfl, ?_⟩
        simp only [World.fail]
        constructor
        · intro h
          subst h
          exact absurd he (parentErr_ne_EEXIST _ _)
        · intro h
          rcases h with h | h | h
          · exact absurd (Or.inl h) hsp
          · exact absurd (Or.inr h) hsp
          · exact absurd hfs h
      · left
        refine ⟨rfl, ?_, rfl⟩
        intro h
        rcases h with h | h | h
        · exact hsp (Or.inl h)
        · exact hsp (Or.inr h)
        · exact h hfs

theorem createAt_deny (c : Sys) (w : World) (p : Path) (nd : Node) :
    (createAt c w p nd).2.deny = w.deny := by
  unfold createAt
  simp only
  split
  · rfl
  · split
    · rfl
    · split
      · rfl
      · split <;> rfl

theorem mkdirs_deny (ds : List Path) (w : World) : (mkdirs w ds).2.deny = w.deny := by
  induction ds generalizing w with
  | nil => rfl
  | cons d ds ih =>
    unfold mkdirs
    simp only
    split
    · exact createAt_deny _ _ _ _
    · rw [ih]
      exact createAt_deny _ _ _ _

theorem present_mono (fs fs1 : Path → Option Node) (x : Path)
    (h : ∀ y nd, fs y = some nd → fs1 y ≠ none) (hx : present fs x) : present fs1 x := by
  rcases hx with hx | hx | hx
  · exact Or.inl hx
  · exact Or.inr (Or.inl hx)
  · right
    right
    cases hfs : fs x with
    | none => exact absurd hfs hx
    | some nd => exact h x nd hfs

theorem sys_mkdir_keeps (w : World) (d : Path) (m : Nat) (y : Path) (nd : Node)
    (hden : w.denied Sys.mkdir d = false) (hy : w.fs y = some nd) :
    (sys_mkdir w d m).2.fs y = some nd := by
  unfold sys_mkdir
  rcases createAt_cases Sys.mkdir w d (Node.dir (creatMode m w.umask)) hden with
    ⟨_, hnone, hfs⟩ | ⟨_, hfs, _⟩
  · rw [hfs]
    by_cases hyd : y = d
    · subst hyd
      exact absurd (Or.inr (Or.inr (by simp [hy]))) hnone
    · simp only [hyd, if_false]
      exact hy
  · rw [hfs]
    exact hy

theorem mkdirs_keeps (ds : List Path) (w : World) (hok : ∀ n c q, w.deny n c q = false)
    (y : Path) (nd : Node) (hy : w.fs y = some nd) : (mkdirs w ds).2.fs y = some nd := by
  induction ds generalizing w with
  | nil => exact hy
  | cons d ds ih =>
    have hden : w.denied Sys.mkdir d = false := hok _ _ _
    have hk := sys_mkdir_keeps w d 0o777 y nd hden hy
    unfold mkdirs
    simp only
    split
    · exact hk
    · refine ih _ ?_ hk
      intro n c q
      rw [show (sys_mkdir w d 0o777).2.deny = w.deny from createAt_deny _ _ _ _]
      exact hok n c q

theorem mkdirs_code (ds : List Path) (w : World) :
    (mkdirs w ds).1 = 0 ∨ (mkdirs w ds).1 = -1 := by
  induction ds generalizing w with
  | nil => exact Or.inl rfl
  | cons d ds ih =>
    unfold mkdirs
    simp only
    split
    · exact Or.inr rfl
    · exact ih _

theorem mkdirs_present (ds : List Path) (w : World) (hok : ∀ n c q, w.deny n c q = false)
    (hr : (mkdirs w ds).1 ≠ -1) : ∀ d ∈ ds, present (mkdirs w ds).2.fs d := by
  induction ds generalizing w with
  | nil => simp
  | cons d ds ih =>
    have hden : w.denied Sys.mkdir d = false := hok _ _ _
    have hok1 : ∀ n c q, (sys_mkdir w d 0o777).2.deny n c q = false := by
      intro n c q
      rw [show (sys_mkdir w d 0o777).2.deny = w.deny from createAt_deny _ _ _ _]
      exact hok n c q
    unfold mkdirs at hr ⊢
    simp only at hr ⊢
    split at hr
    · exact absurd rfl hr
    · rename_i hcont
      simp only [hcont, if_false]
      intro x hx
      rcases List.mem_cons.mp hx with hxd | hxd
      · subst hxd
        have hp1 : present (sys_mkdir w x 0o777).2.fs x := by
          unfold sys_mkdir at hcont ⊢
          rcases createAt_cases Sys.mkdir w x (Node.dir (creatMode 0o777 w.umask)) hden with
            ⟨_, _, hfs⟩ | ⟨hm1, hfs, hiff⟩
          · rw [hfs]
            exact Or.inr (Or.inr (by simp))
          · rw [hfs]
            apply hiff.mp
            by_contra hne
            exact hcont ⟨hm1, hne⟩
        exact present_mono _ _ x
          (fun y nd hy => by rw [mkdirs_keeps ds _ hok1 y nd hy]; simp) hp1
      · exact ih _ hok1 hr x hxd

theorem mkdirs_idle (ds : List Path) (w : World) (hok : ∀ n c q, w.deny n c q = false)
    (hall : ∀ d ∈ ds, present w.fs d) :
    (mkdirs w ds).1 = 0 ∧ (mkdirs w ds).2.fs = w.fs := by
  induction ds generalizing w with
  | nil => exact ⟨rfl, rfl⟩
  | cons d ds ih =>
    have hden : w.denied Sys.mkdir d = false := hok _ _ _
    have hok1 : ∀ n c q, (sys_mkdir w d 0o777).2.deny n c q = false := by
      intro n c q
      rw [show (sys_mkdir w d 0o777).2.deny = w.deny from createAt_deny _ _ _ _]
      exact hok n c q
    have hd : present w.fs d := hall d (List.mem_cons_self _ _)
    have hmk : (sys_mkdir w d 0o777).2.fs = w.fs ∧
        (sys_mkdir w d 0o777).2.errno = Errno.EEXIST := by
      unfold sys_mkdir
      rcases createAt_cases Sys.mkdir w d (Node.dir (creatMode 0o777 w.umask)) hden with
        ⟨_, hnone, _⟩ | ⟨_, hfs, hiff⟩
      · exact absurd hd hnone
      · exact ⟨hfs, hiff.mpr hd⟩
    unfold mkdirs
    simp only [hmk.2, ne_eq, not_true_eq_false, and_false, if_false]
    have := ih (sys_mkdir w d 0o777).2 hok1 (by
      intro x hx
      rw [hmk.1]
      exact hall x (List.mem_cons_of_mem _ hx))
    exact ⟨this.1, this.2.trans hmk.1⟩

theorem sys_chmod_cases (w : World) (p : Path) (m : Nat)
    (hden : w.denied Sys.chmod p = false) :
    (∃ q nd, follow w.fs SYMLOOP_MAX p = some q ∧ w.fs q = some nd ∧
      (sys_chmod w p m).1 = 0 ∧
      (sys_chmod w p m).2.fs = (fun x => if x = q then some (nd.chmod m) else w.fs x)) ∨
    ((sys_chmod w p m).1 = -1 ∧
      ¬ ∃ q nd, follow w.fs SYMLOOP_MAX p = some q ∧ w.fs q = some nd) := by
  unfold sys_chmod
  simp only [hden, Bool.false_eq_true, if_false]
  split
  · right
    rename_i h
    exact ⟨rfl, by simp [h]⟩
  · rename_i q hq
    split
    · left
      rename_i nd hnd
      exact ⟨q, nd, hq, hnd, rfl, rfl⟩
    · right
      rename_i hnd
      refine ⟨rfl, ?_⟩
      rintro ⟨q1, nd1, h1, h2⟩
      rw [hq] at h1
      simp only [Option.some.injEq] at h1
      subst h1
      rw [hnd] at h2
      simp at h2

theorem sys_chmod_deny (w : World) (p : Path) (m : Nat) :
    (sys_chmod w p m).2.deny = w.deny := by
  unfold sys_chmod
  simp only
  split
  · rfl
  · split
    · rfl
    · split <;> rfl

theorem settled_put (fs : Path → Option Node) (p q : Path) (nd : Node)
    (hfollow : follow (fun x => if x = q then some nd else fs x) SYMLOOP_MAX p = some q)
    (hchain : ∀ d ∈ dirChain (dirname p), present fs d) (hp : present fs p ∨ p = q) :
    Settled (fun x => if x = q then some nd else fs x) p := by
  have hmono : ∀ x, present fs x → present (fun x => if x = q then some nd else fs x) x := by
    intro x hx
    refine present_mono fs _ x ?_ hx
    intro y nd1 hy
    by_cases hyq : y = q
    · simp [hyq]
    · simp [hyq, hy]
  refine ⟨fun d hd => hmono d (hchain d hd), ?_, q, nd, hfollow, by simp⟩
  rcases hp with hp | hp
  · exact hmono p hp
  · subst hp
    exact Or.inr (Or.inr (by simp))

theorem tar_extract_dir_settles (t : TAR) (w : World) (p : Path)
    (hok : ∀ n c q, w.deny n c q = false)
    (hr : (tar_extract_dir t w (some p)).1 ≠ -1) :
    Settled (tar_extract_dir t w (some p)).2.fs p ∧
    (tar_extract_dir t w (some p)).2.deny = w.deny := by
  unfold tar_extract_dir at hr ⊢
  simp only [Option.getD_some] at hr ⊢
  split at hr
  · exact absurd rfl hr
  · rename_i hdir
    simp only [hdir, if_false]
    have hok0 : ∀ n c q, (w.emit (Event.call Materializer.dir p)).deny n c q = false := hok
    have hmd_deny : (mkdirs_for (w.emit (Event.call Materializer.dir p)) p).2.deny = w.deny :=
      mkdirs_deny _ _
    have hok1 : ∀ n c q,
        (mkdirs_for (w.emit (Event.call Materializer.dir p)) p).2.deny n c q = false := by
      intro n c q
      rw [hmd_deny]
      exact hok n c q
    split at hr
    · exact absurd rfl hr
    · rename_i hmd
      simp only [hmd, if_false]
      have hchain := mkdirs_present (dirChain (dirname p)) _ hok0 hmd
      have hmkc := createAt_cases Sys.mkdir
        (mkdirs_for (w.emit (Event.call Materializer.dir p)) p).2 p
        (Node.dir (creatMode (th_get_mode t)
          (mkdirs_for (w.emit (Event.call Materializer.dir p)) p).2.umask)) (hok1 _ _ _)
      have hmk_deny : (sys_mkdir (mkdirs_for (w.emit (Event.call Materializer.dir p)) p).2 p
          (th_get_mode t)).2.deny = w.deny := by
        rw [show (sys_mkdir (mkdirs_for (w.emit (Event.call Materializer.dir p)) p).2 p
          (th_get_mode t)).2.deny = _ from createAt_deny _ _ _ _]
        exact hmd_deny
      split at hr
      · rename_i hmk
        simp only [hmk, if_true]
        split at hr
        · rename_i herr
          simp only [herr, if_true]
          split at hr
          · exact absurd rfl hr
          · rename_i hch
            simp only [hch, if_false]
            refine ⟨?_, by rw [sys_chmod_deny]; exact hmk_deny⟩
            have hden : (sys_mkdir (mkdirs_for (w.emit (Event.call Materializer.dir p)) p).2 p
                (th_get_mode t)).2.denied Sys.chmod p = false := by
              unfold World.denied
              rw [hmk_deny]
              exact hok _ _ _
            rcases hmkc with ⟨h0, _, _⟩ | ⟨_, hfs, hiff⟩
            · unfold sys_mkdir at hmk
              rw [h0] at hmk
              simp at hmk
            · have hpres : present (mkdirs_for (w.emit (Event.call Materializer.dir p)) p).2.fs p :=
                hiff.mp herr
              rcases sys_chmod_cases _ p (th_get_mode t) hden with
                ⟨q, nd, hq, hnd, _, hfs2⟩ | ⟨hm1, _⟩
              · rw [hfs2]
                have hfs1 : (sys_mkdir (mkdirs_for (w.emit (Event.call Materializer.dir p)) p).2 p
                    (th_get_mode t)).2.fs
                    = (mkdirs_for (w.emit (Event.call Materializer.dir p)) p).2.fs := hfs
                rw [hfs1] at hq hnd ⊢
                have hnl : ∀ tgt, nd ≠ Node.symlink tgt := fun tgt he =>
                  follow_not_link _ _ _ _ hq tgt (by rw [hnd, he])
                refine settled_put _ p q _ ?_ hchain (Or.inl hpres)
                rw [follow_put_chmod _ q nd _ hnd hnl _ p]
                exact hq
              · exact absurd hm1 hch
        · exact absurd rfl hr
      · rename_i hmk
        simp only [hmk, if_false]
        refine ⟨?_, hmk_deny⟩
        rcases hmkc with ⟨_, _, hfs⟩ | ⟨hm1, _, _⟩
        · unfold sys_mkdir
          rw [hfs]
          refine settled_put _ p p _ ?_ hchain (Or.inr rfl)
          simp [follow, SYMLOOP_MAX]
        · exact absurd hm1 hmk

theorem tar_extract_dir_again (t : TAR) (w : World) (p : Path)
    (hok : ∀ n c q, w.deny n c q = false) (hdir : TH_ISDIR t = true)
    (hs : Settled w.fs p) :
    (tar_extract_dir t w (some p)).1 = 1 ∧
    modeAt (tar_extract_dir t w (some p)).2.fs p = some (th_get_mode t &&& 0o7777) := by
  obtain ⟨hchain, hpres, q, nd, hq, hnd⟩ := hs
  have hok0 : ∀ n c q, (w.emit (Event.call Materializer.dir p)).deny n c q = false := hok
  have hidle := mkdirs_idle (dirChain (dirname p)) (w.emit (Event.call Materializer.dir p))
    hok0 hchain
  have hmd_deny : (mkdirs_for (w.emit (Event.call Materializer.dir p)) p).2.deny = w.deny :=
    mkdirs_deny _ _
  have hmd_fs : (mkdirs_for (w.emit (Event.call Materializer.dir p)) p).2.fs = w.fs := hidle.2
  have hmd_code : (mkdirs_for (w.emit (Event.call Materializer.dir p)) p).1 = 0 := hidle.1
  have hden1 : (mkdirs_for (w.emit (Event.call Materializer.dir p)) p).2.denied Sys.mkdir p
      = false := by
    unfold World.denied
    rw [hmd_deny]
    exact hok _ _ _
  have hmkc := createAt_cases Sys.mkdir
    (mkdirs_for (w.emit (Event.call Materializer.dir p)) p).2 p
    (Node.dir (creatMode (th_get_mode t)
      (mkdirs_for (w.emit (Event.call Materializer.dir p)) p).2.umask)) hden1
  have hmk_deny : (sys_mkdir (mkdirs_for (w.emit (Event.call Materializer.dir p)) p).2 p
      (th_get_mode t)).2.deny = w.deny := by
    rw [show (sys_mkdir (mkdirs_for (w.emit (Event.call Materializer.dir p)) p).2 p
      (th_get_mode t)).2.deny = _ from createAt_deny _ _ _ _]
    exact hmd_deny
  have hden2 : (sys_mkdir (mkdirs_for (w.emit (Event.call Materializer.dir p)) p).2 p
      (th_get_mode t)).2.denied Sys.chmod p = false := by
    unfold World.denied
    rw [hmk_deny]
    exact hok _ _ _
  rcases hmkc with ⟨_, hnp, _⟩ | ⟨hm1, hfs, hiff⟩
  · rw [hmd_fs] at hnp
    exact absurd hpres hnp
  · have herr := hiff.mpr (by rw [hmd_fs]; exact hpres)
    have hfs1 : (sys_mkdir (mkdirs_for (w.emit (Event.call Materializer.dir p)) p).2 p
        (th_get_mode t)).2.fs = w.fs := hfs.trans hmd_fs
    have hmk1 : (sys_mkdir (mkdirs_for (w.emit (Event.call Materializer.dir p)) p).2 p
        (th_get_mode t)).1 = -1 := hm1
    have hmkerr : (sys_mkdir (mkdirs_for (w.emit (Event.call Materializer.dir p)) p).2 p
        (th_get_mode t)).2.errno = Errno.EEXIST := herr
    rcases sys_chmod_cases _ p (th_get_mode t) hden2 with
      ⟨q1, nd1, hq1, hnd1, hc0, hfs2⟩ | ⟨_, hno⟩
    · rw [hfs1] at hq1 hnd1 hfs2
      rw [hq] at hq1
      simp only [Option.some.injEq] at hq1
      subst hq1
      rw [hnd] at hnd1
      simp only [Option.some.injEq] at hnd1
      subst hnd1
      have hnl : ∀ tgt, nd ≠ Node.symlink tgt := fun tgt he =>
        follow_not_link _ _ _ _ hq tgt (by rw [hnd, he])
      have hres : tar_extract_dir t w (some p) = (1, (sys_chmod (sys_mkdir
          (mkdirs_for (w.emit (Event.call Materializer.dir p)) p).2 p (th_get_mode t)).2 p
          (th_get_mode t)).2) := by
        unfold tar_extract_dir
        simp [hdir, hmd_code, hmk1, hmkerr, hc0]
      rw [hres]
      refine ⟨rfl, ?_⟩
      simp only
      rw [hfs2]
      unfold modeAt
      rw [follow_put_chmod _ q nd _ hnd hnl, hq]
      simp only [if_true]
      exact chmod_mode nd _ hnl
    · rw [hfs1] at hno
      exact absurd ⟨q, nd, hq, hnd⟩ hno

theorem land_permission_bits (m : Nat) (h : m < 0o10000) : m &&& 0o7777 = m := by
  have := Nat.and_pow_two_sub_one_eq_mod m 12
  simp only [Nat.reducePow, Nat.add_one_sub_one] at this
  rw [show (0o7777 : Nat) = 4096 - 1 from rfl, this]
  exact Nat.mod_eq_of_lt h

theorem dispatch_dir (k : Consts) (t : TAR) (w : World) (p : Path) (hdir : TH_ISDIR t = true) :
    dispatch k t w p =
      ((if (tar_extract_dir t w (some p)).1 = 1 then 0 else (tar_extract_dir t w (some p)).1),
        t, (tar_extract_dir t w (some p)).2) := by
  unfold dispatch
  simp only [hdir, if_true]

theorem createAt_fresh (c : Sys) (w : World) (p : Path) (nd : Node)
    (hden : w.denied c p = false) (hnp : ¬ present w.fs p) (hpar : parentErr w.fs p = none) :
    (createAt c w p nd).1 = 0 := by
  have h1 : ¬ (p = ['.'] ∨ p = ['/']) := by
    intro h
    rcases h with h | h
    · exact hnp (Or.inl h)
    · exact hnp (Or.inr (Or.inl h))
  have h2 : w.fs p = none := by
    cases hfs : w.fs p with
    | none => rfl
    | some n => exact absurd (Or.inr (Or.inr (by simp [hfs]))) hnp
  unfold createAt
  simp only [hden, Bool.false_eq_true, if_false, h1, h2, hpar]

theorem tar_extract_dir_fresh (t : TAR) (w : World) (p : Path)
    (hok : ∀ n c q, w.deny n c q = false) (hdir : TH_ISDIR t = true)
    (hchain : ∀ d ∈ dirChain (dirname p), present w.fs d)
    (hnp : ¬ present w.fs p) (hpar : parentErr w.fs p = none) :
    (tar_extract_dir t w (some p)).1 = 0 := by
  have hok0 : ∀ n c q, (w.emit (Event.call Materializer.dir p)).deny n c q = false := hok
  have hidle := mkdirs_idle (dirChain (dirname p)) (w.emit (Event.call Materializer.dir p))
    hok0 hchain
  have hmd_deny : (mkdirs_for (w.emit (Event.call Materializer.dir p)) p).2.deny = w.deny :=
    mkdirs_deny _ _
  have hmd_fs : (mkdirs_for (w.emit (Event.call Materializer.dir p)) p).2.fs = w.fs := hidle.2
  have hmd_code : (mkdirs_for (w.emit (Event.call Materializer.dir p)) p).1 = 0 := hidle.1
  have hden1 : (mkdirs_for (w.emit (Event.call Materializer.dir p)) p).2.denied Sys.mkdir p
      = false := by
    unfold World.denied
    rw [hmd_deny]
    exact hok _ _ _
  have hmk : (sys_mkdir (mkdirs_for (w.emit (Event.call Materializer.dir p)) p).2 p
      (th_get_mode t)).1 = 0 :=
    createAt_fresh _ _ _ _ hden1 (by rw [hmd_fs]; exact hnp) (by rw [hmd_fs]; exact hpar)
  unfold tar_extract_dir
  simp [hdir, hmd_code, hmk]

/-! ## C7: the same directory twice -/

/-- C7: two Directory entries for the same path `p` extracted in sequence by
`tar_extract_file` without `TAR_NOOVERWRITE`, on a filesystem where no call
is made to fail from outside.  The first extraction returns 0 when the
directories above `p` exist and `p` is a free name in an existing directory
or already leads to an object; and once the first extraction has returned 0
(also when it had to create the directories above `p`), the second finds the
directory present (`tar_extract_dir` returns 1), sets its mode again and is
reported as 0, and the permission bits of `p` are then those of the second
entry. -/
theorem tar_extract_file_directory_twice (k : Consts) (t1 t2 : TAR) (w : World) (p : Path)
    (hdir1 : TH_ISDIR t1 = true) (hdir2 : TH_ISDIR t2 = true)
    (hallow1 : t1.options &&& k.TAR_NOOVERWRITE = 0)
    (hallow2 : t2.options &&& k.TAR_NOOVERWRITE = 0)
    (hok : ∀ n c q, w.deny n c q = false) :
    (((∀ d ∈ dirChain (dirname p), present w.fs d) ∧
        (Settled w.fs p ∨ (¬ present w.fs p ∧ parentErr w.fs p = none))) →
      (tar_extract_file k t1 w p).1 = 0) ∧
    ((tar_extract_file k t1 w p).1 = 0 →
      (tar_extract_dir t2 (tar_extract_file k t1 w p).2.2 (some p)).1 = 1 ∧
      (tar_extract_file k t2 (tar_extract_file k t1 w p).2.2 p).1 = 0 ∧
      modeAt (tar_extract_file k t2 (tar_extract_file k t1 w p).2.2 p).2.2.fs p
        = some (th_get_mode t2 &&& 0o7777) ∧
      (th_get_mode t2 < 0o10000 →
        modeAt (tar_extract_file k t2 (tar_extract_file k t1 w p).2.2 p).2.2.fs p
          = some (th_get_mode t2))) := by
  have hf1 : tar_extract_file k t1 w p = dispatch k t1 w p := by
    unfold tar_extract_file
    simp [hallow1]
  have hf2 : ∀ w1, tar_extract_file k t2 w1 p = dispatch k t2 w1 p := by
    intro w1
    unfold tar_extract_file
    simp [hallow2]
  constructor
  · rintro ⟨hchain, hplace⟩
    rw [hf1, dispatch_dir k t1 w p hdir1]
    rcases hplace with hs | ⟨hnp, hpar⟩
    · simp [(tar_extract_dir_again t1 w p hok hdir1 hs).1]
    · simp [tar_extract_dir_fresh t1 w p hok hdir1 hchain hnp hpar]
  · intro hfirst
    rw [hf1, dispatch_dir k t1 w p hdir1] at hfirst
    simp only at hfirst
    have hne : (tar_extract_dir t1 w (some p)).1 ≠ -1 := by
      intro h
      rw [h] at hfirst
      simp at hfirst
    obtain ⟨hset, hdeny⟩ := tar_extract_dir_settles t1 w p hok hne
    have hok1 : ∀ n c q, (tar_extract_dir t1 w (some p)).2.deny n c q = false := by
      intro n c q
      rw [hdeny]
      exact hok n c q
    obtain ⟨h1, hmode⟩ := tar_extract_dir_again t2 _ p hok1 hdir2 hset
    rw [hf1, dispatch_dir k t1 w p hdir1]
    simp only
    rw [hf2, dispatch_dir k t2 _ p hdir2]
    simp only [h1, if_true]
    refine ⟨trivial, trivial, hmode, fun hlt => ?_⟩
    rw [hmode, land_permission_bits _ hlt]

/-- C7, witness: `x` extracted as a directory with mode 0700 and then with
mode 0755 on an empty filesystem; both succeed and the mode ends as 0755. -/
theorem tar_extract_file_directory_twice_witness :
    (¬ present emptyWorld.fs ['x'] ∧ parentErr emptyWorld.fs ['x'] = none) ∧
    (tar_extract_file linux (handleOn 0 (plainItem FileType.Directory ['x'] [] 0o700))
      emptyWorld ['x']).1 = 0 ∧
    (tar_extract_file linux (handleOn 0 (plainItem FileType.Directory ['x'] [] 0o755))
      (tar_extract_file linux (handleOn 0 (plainItem FileType.Directory ['x'] [] 0o700))
        emptyWorld ['x']).2.2 ['x']).1 = 0 ∧
    modeAt (tar_extract_file linux (handleOn 0 (plainItem FileType.Directory ['x'] [] 0o755))
      (tar_extract_file linux (handleOn 0 (plainItem FileType.Directory ['x'] [] 0o700))
        emptyWorld ['x']).2.2 ['x']).2.2.fs ['x'] = some 0o755 := by
  have hplace : ¬ present emptyWorld.fs ['x'] ∧ parentErr emptyWorld.fs ['x'] = none :=
    ⟨by decide, by decide⟩
  have hchain : ∀ d ∈ dirChain (dirname ['x']), present emptyWorld.fs d := by decide
  have h := tar_extract_file_directory_twice linux
    (handleOn 0 (plainItem FileType.Directory ['x'] [] 0o700))
    (handleOn 0 (plainItem FileType.Directory ['x'] [] 0o755))
    emptyWorld ['x'] rfl rfl rfl rfl (fun _ _ _ => rfl)
  have hfirst := h.1 ⟨hchain, Or.inr hplace⟩
  exact ⟨hplace, hfirst, (h.2 hfirst).2.1, (h.2 hfirst).2.2.2 (by decide)⟩

/-! ## Links and outside failures are left alone -/

theorem follow_put (fs : Path → Option Node) (q : Path) (nd : Node)
    (h1 : ∀ tgt, fs q ≠ some (Node.symlink tgt)) (h2 : ∀ tgt, nd ≠ Node.symlink tgt)
    (n : Nat) (p : Path) :
    follow (fun x => if x = q then some nd else fs x) n p = follow fs n p := by
  induction n generalizing p with
  | zero => rfl
  | succ n ih =>
    unfold follow
    by_cases hp : p = q
    · subst hp
      simp only [if_true]
      have e1 : (match some nd with
          | some (Node.symlink tgt) => follow (fun x => if x = p then some nd else fs x) n tgt
          | _ => some p) = some p := by
        cases nd <;> simp_all
      rw [e1]
    · simp only [hp, if_false]
      split
      · exact ih _
      · rfl

theorem follow_put_chmod_any (fs : Path → Option Node) (q : Path) (nd : Node) (m : Nat)
    (hq : fs q = some nd) (n : Nat) (p : Path) :
    follow (fun x => if x = q then some (nd.chmod m) else fs x) n p = follow fs n p := by
  by_cases hl : ∃ tgt, nd = Node.symlink tgt
  · obtain ⟨tgt, rfl⟩ := hl
    have : (fun x => if x = q then some ((Node.symlink tgt).chmod m) else fs x) = fs := by
      funext x
      by_cases hx : x = q
      · subst hx
        simp [Node.chmod, hq]
      · simp [hx]
    rw [this]
  · exact follow_put_chmod fs q nd m hq (fun tgt he => hl ⟨tgt, he⟩) n p

theorem keeps_refl (w : World) : Keeps w w := ⟨rfl, fun _ _ => rfl⟩

theorem keeps_trans (w w1 w2 : World) (h1 : Keeps w w1) (h2 : Keeps w1 w2) : Keeps w w2 :=
  ⟨h2.1.trans h1.1, fun n p => (h2.2 n p).trans (h1.2 n p)⟩

theorem keeps_of_fs (w w1 : World) (hd : w1.deny = w.deny) (hf : w1.fs = w.fs) : Keeps w w1 :=
  ⟨hd, fun n p => by rw [hf]⟩

theorem openTrunc_keeps (c : Sys) (w : World) (p : Path) : Keeps w (openTrunc c w p).2 := by
  unfold openTrunc
  simp only
  split
  · exact keeps_of_fs _ _ rfl rfl
  · split
    · exact keeps_of_fs _ _ rfl rfl
    · rename_i q hq
      have hnl := follow_not_link _ _ _ _ hq
      split
      · exact ⟨rfl, fun n p1 => follow_put w.fs q _ hnl (by simp) n p1⟩
      · exact keeps_of_fs _ _ rfl rfl
      · exact keeps_of_fs _ _ rfl rfl
      · split
        · exact keeps_of_fs _ _ rfl rfl
        · exact ⟨rfl, fun n p1 => follow_put w.fs q _ hnl (by simp) n p1⟩

theorem appendTo_keeps (c : Sys) (w : World) (fd : Option Path) (data : List Nat) :
    Keeps w (appendTo c w fd data).2 := by
  unfold appendTo
  split
  · exact keeps_of_fs _ _ rfl rfl
  · simp only
    split
    · exact keeps_of_fs _ _ rfl rfl
    · split
      · rename_i hfs
        exact ⟨rfl, fun n p1 => follow_put w.fs _ _ (by simp [hfs]) (by simp) n p1⟩
      · exact keeps_of_fs _ _ rfl rfl

theorem sys_fchmod_keeps (w : World) (fd : Option Path) (m : Nat) :
    Keeps w (sys_fchmod w fd m).2 := by
  unfold sys_fchmod
  split
  · exact keeps_of_fs _ _ rfl rfl
  · simp only
    split
    · exact keeps_of_fs _ _ rfl rfl
    · split
      · rename_i hfs
        exact ⟨rfl, fun n p1 => follow_put_chmod_any w.fs _ _ m hfs n p1⟩
      · exact keeps_of_fs _ _ rfl rfl

theorem sys_chmod_keeps (w : World) (p : Path) (m : Nat) : Keeps w (sys_chmod w p m).2 := by
  unfold sys_chmod
  simp only
  split
  · exact keeps_of_fs _ _ rfl rfl
  · split
    · exact keeps_of_fs _ _ rfl rfl
    · split
      · rename_i hfs
        exact ⟨rfl, fun n p1 => follow_put_chmod_any w.fs _ _ m hfs n p1⟩
      · exact keeps_of_fs _ _ rfl rfl

theorem createAt_keeps (c : Sys) (w : World) (p : Path) (nd : Node)
    (hnl : ∀ tgt, nd ≠ Node.symlink tgt) : Keeps w (createAt c w p nd).2 := by
  unfold createAt
  simp only
  split
  · exact keeps_of_fs _ _ rfl rfl
  · split
    · exact keeps_of_fs _ _ rfl rfl
    · split
      · exact keeps_of_fs _ _ rfl rfl
      · rename_i hfs
        split
        · exact keeps_of_fs _ _ rfl rfl
        · exact ⟨rfl, fun n p1 => follow_put w.fs p nd (by simp [hfs]) hnl n p1⟩

theorem mkdirs_keeps_links (ds : List Path) (w : World) : Keeps w (mkdirs w ds).2 := by
  induction ds generalizing w with
  | nil => exact keeps_refl w
  | cons d ds ih =>
    have h1 : Keeps w (sys_mkdir w d 0o777).2 := createAt_keeps _ _ _ _ (by simp)
    unfold mkdirs
    simp only
    split
    · exact h1
    · exact keeps_trans _ _ _ h1 (ih _)

theorem sys_lstat_keeps (w : World) (p : Path) :
    (sys_lstat w p).2.fs = w.fs ∧ (sys_lstat w p).2.deny = w.deny := by
  unfold sys_lstat
  simp only
  split
  · exact ⟨rfl, rfl⟩
  · split <;> exact ⟨rfl, rfl⟩

theorem sys_stat_keeps (w : World) (p : Path) :
    (sys_stat w p).2.fs = w.fs ∧ (sys_stat w p).2.deny = w.deny := by
  unfold sys_stat
  simp only
  split
  · exact ⟨rfl, rfl⟩
  · split
    · exact ⟨rfl, rfl⟩
    · split <;> exact ⟨rfl, rfl⟩

theorem keeps_emit (w : World) (e : Event) : Keeps w (w.emit e) := ⟨rfl, fun _ _ => rfl⟩

theorem keeps_fail (w : World) (e : Errno) : Keeps w (w.fail e) := ⟨rfl, fun _ _ => rfl⟩

theorem openTrunc_follow (c : Sys) (w : World) (p q : Path)
    (h : (openTrunc c w p).1 = some q) : follow w.fs SYMLOOP_MAX p = some q := by
  unfold openTrunc at h
  simp only at h
  split at h
  · simp at h
  · split at h
    · simp at h
    · rename_i q1 hq1
      split at h
      · simp only [Option.some.injEq] at h
        rw [← h]
        exact hq1
      · simp at h
      · simp at h
      · split at h
        · simp at h
        · simp only [Option.some.injEq] at h
          rw [← h]
          exact hq1

theorem regfile_open_keeps (w : World) (p : Path) : Keeps w (regfile_open w p).2.2 := by
  have h1 : Keeps w (sys_open w p).2 := openTrunc_keeps _ _ _
  have h2 : Keeps (sys_open w p).2 (mkdirs_for (sys_open w p).2 p).2 := mkdirs_keeps_links _ _
  have h3 : Keeps (mkdirs_for (sys_open w p).2 p).2
      (sys_open (mkdirs_for (sys_open w p).2 p).2 p).2 := openTrunc_keeps _ _ _
  unfold regfile_open
  simp only
  split
  · split
    · exact keeps_trans _ _ _ h1 h2
    · split
      · exact keeps_trans _ _ _ h1 (keeps_trans _ _ _ h2 h3)
      · exact keeps_trans _ _ _ h1 (keeps_trans _ _ _ h2 h3)
  · exact h1

theorem regfile_open_follow (w : World) (p q : Path) (h : (regfile_open w p).2.1 = some q) :
    follow (regfile_open w p).2.2.fs SYMLOOP_MAX p = some q := by
  have hk := regfile_open_keeps w p
  unfold regfile_open at h ⊢
  simp only at h ⊢
  split at h
  · rename_i h1
    simp only [h1, and_self, if_true]
    split at h
    · simp at h
    · rename_i h2
      simp only [h2, if_false]
      split at h
      · simp at h
      · rename_i h3
        simp only [h3, if_false]
        exact ((openTrunc_keeps Sys.open _ p).2 SYMLOOP_MAX p).trans (openTrunc_follow _ _ _ _ h)
  · rename_i h1
    simp only [h1, if_false]
    exact ((openTrunc_keeps Sys.open _ p).2 SYMLOOP_MAX p).trans (openTrunc_follow _ _ _ _ h)

theorem regfile_body_keeps (k : Consts) (t : TAR) (w : World) (filename : Path)
    (fd : Option Path) (mode size : Nat) :
    Keeps w (regfile_body k t w filename fd mode size).2.2 := by
  have h0 : Keeps w (readfunc t w (align_up size k.T_BLOCKSIZE)).2.2 := keeps_emit _ _
  have h1 : Keeps (readfunc t w (align_up size k.T_BLOCKSIZE)).2.2
      (sys_write (readfunc t w (align_up size k.T_BLOCKSIZE)).2.2 fd
        ((readfunc t w (align_up size k.T_BLOCKSIZE)).1.take size)).2 := appendTo_keeps _ _ _ _
  have h01 := keeps_trans _ _ _ h0 h1
  have h2 := sys_fchmod_keeps (sys_write (readfunc t w (align_up size k.T_BLOCKSIZE)).2.2 fd
        ((readfunc t w (align_up size k.T_BLOCKSIZE)).1.take size)).2 fd (mode &&& 0o7777)
  have h012 := keeps_trans _ _ _ h01 h2
  have h3 := sys_chmod_keeps (sys_fchmod (sys_write (readfunc t w (align_up size k.T_BLOCKSIZE)).2.2 fd
        ((readfunc t w (align_up size k.T_BLOCKSIZE)).1.take size)).2 fd (mode &&& 0o7777)).2
        filename (mode &&& 0o7777)
  have h0123 := keeps_trans _ _ _ h012 h3
  unfold regfile_body
  simp only
  split
  · exact keeps_trans _ _ _ h0 (keeps_fail _ _)
  · split
    · exact keeps_trans _ _ _ h01 (keeps_fail _ _)
    · split
      · split
        · exact h0123
        · exact h0123
      · exact h012

theorem regfile_body_badfd (k : Consts) (t : TAR) (w : World) (filename : Path)
    (mode size : Nat) : (regfile_body k t w filename none mode size).1 = -1 := by
  unfold regfile_body
  simp only [sys_write, appendTo]
  split
  · rfl
  · split
    · rfl
    · rename_i h
      exfalso
      apply h
      omega

theorem tar_extract_regfile_keeps (k : Consts) (t : TAR) (w : World) (realname : Option Path) :
    Keeps w (tar_extract_regfile k t w realname).2.2 := by
  have h0 : Keeps w (w.emit (Event.call Materializer.regfile
      (realname.getD (th_get_pathname t)))) := keeps_emit _ _
  have h1 := regfile_open_keeps (w.emit (Event.call Materializer.regfile
      (realname.getD (th_get_pathname t)))) (realname.getD (th_get_pathname t))
  unfold tar_extract_regfile
  simp only
  split
  · exact keeps_trans _ _ _ h0 (keeps_trans _ _ _ h1 (regfile_body_keeps _ _ _ _ _ _ _))
  · exact keeps_trans _ _ _ h0 h1

theorem tar_extract_regfile_success (k : Consts) (t : TAR) (w : World) (p : Path)
    (h0 : (tar_extract_regfile k t w (some p)).1 = 0) :
    ∃ q, follow (tar_extract_regfile k t w (some p)).2.2.fs SYMLOOP_MAX p = some q ∧
      dataAt (tar_extract_regfile k t w (some p)).2.2.fs q
        = some ((t.payload.take (align_up (th_get_size t) k.T_BLOCKSIZE)).take (th_get_size t)) := by
  cases hfd : (regfile_open (w.emit (Event.call Materializer.regfile p)) p).2.1 with
  | none =>
    exfalso
    unfold tar_extract_regfile at h0
    simp only [Option.getD_some, hfd] at h0
    split at h0
    · rw [regfile_body_badfd] at h0
      simp at h0
    · simp at h0
  | some q =>
    refine ⟨q, ?_, ?_⟩
    · have hf := regfile_open_follow _ _ _ hfd
      have hgo := (regfile_open_some _ _ _ hfd).1
      have hk := regfile_body_keeps k t
        (regfile_open (w.emit (Event.call Materializer.regfile p)) p).2.2 p (some q)
        (th_get_mode t) (th_get_size t)
      unfold tar_extract_regfile
      simp only [Option.getD_some, hgo, hfd, if_true]
      rw [hk.2]
      exact hf
    · obtain ⟨hgo, hdata⟩ := regfile_open_some _ _ _ hfd
      have hb := (regfile_body_spec k t _ p q (th_get_mode t) (th_get_size t) hdata).2.2
      unfold tar_extract_regfile at h0 ⊢
      simp only [Option.getD_some, hgo, hfd, if_true] at h0 ⊢
      exact (hb h0).2.2

/-! ## The copy loop -/

theorem take_append_drop_length (l : List Nat) (n : Nat) :
    l.take n ++ l.drop (l.take n).length = l := by
  rw [List.length_take]
  by_cases h : n ≤ l.length
  · rw [Nat.min_eq_left h]
    exact List.take_append_drop n l
  · have h1 : l.length ≤ n := by omega
    rw [Nat.min_eq_right h1, List.take_of_length_le h1, List.drop_length, List.append_nil]

theorem sys_fread_file (w : World) (src : Path) (off n : Nat) (D : List Nat)
    (hden : w.denied Sys.fread src = false) (hs : dataAt w.fs src = some D) :
    sys_fread w src off n = ((D.drop off).take n, w.emit (Event.sys Sys.fread src)) := by
  unfold sys_fread
  simp only [hden, Bool.false_eq_true, if_false]
  unfold dataAt at hs
  split at hs
  · rename_i hfs
    simp only [Option.some.injEq] at hs
    subst hs
    simp [hfs]
  · simp at hs

theorem sys_fwrite_file (w : World) (dst : Path) (data E : List Nat)
    (hden : w.denied Sys.fwrite dst = false) (hd : dataAt w.fs dst = some E) :
    (sys_fwrite w dst data).1 = data.length ∧
    dataAt (sys_fwrite w dst data).2.fs dst = some (E ++ data) ∧
    (∀ x, x ≠ dst → (sys_fwrite w dst data).2.fs x = w.fs x) := by
  unfold sys_fwrite appendTo
  simp only [hden, Bool.false_eq_true, if_false]
  unfold dataAt at hd
  split at hd
  · rename_i hfs
    simp only [Option.some.injEq] at hd
    subst hd
    simp only [hfs]
    refine ⟨by simp, by simp [dataAt, World.put, World.emit], ?_⟩
    intro x hx
    simp [World.put, World.emit, hx]
  · simp at hd

theorem copy_loop_spec (src dst : Path) (hne : src ≠ dst) (D : List Nat) (fuel : Nat) :
    ∀ (off : Nat) (w : World) (E : List Nat),
      (∀ n c q, w.deny n c q = false) → dataAt w.fs src = some D → dataAt w.fs dst = some E →
      D.length - off < fuel →
      (copy_loop src dst fuel off w).1 = true ∧
      dataAt (copy_loop src dst fuel off w).2.fs dst = some (E ++ D.drop off) ∧
      Keeps w (copy_loop src dst fuel off w).2 := by
  induction fuel with
  | zero =>
    intro off w E _ _ _ hf
    omega
  | succ fuel ih =>
    intro off w E hok hs hd hf
    have hrd := sys_fread_file w src off 4096 D (hok _ _ _) hs
    unfold copy_loop
    simp only [hrd]
    by_cases hlen : 0 < ((D.drop off).take 4096).length
    · simp only [hlen, if_true]
      have hd1 : dataAt (w.emit (Event.sys Sys.fread src)).fs dst = some E := hd
      have hden1 : (w.emit (Event.sys Sys.fread src)).denied Sys.fwrite dst = false := hok _ _ _
      obtain ⟨hw1, hw2, hw3⟩ := sys_fwrite_file (w.emit (Event.sys Sys.fread src)) dst
        ((D.drop off).take 4096) E hden1 hd1
      have hk1 : Keeps w (sys_fwrite (w.emit (Event.sys Sys.fread src)) dst
          ((D.drop off).take 4096)).2 :=
        keeps_trans _ _ _ (keeps_emit _ _) (appendTo_keeps _ _ _ _)
      simp only [hw1, ne_eq, not_true_eq_false, if_false]
      have hs2 : dataAt (sys_fwrite (w.emit (Event.sys Sys.fread src)) dst
          ((D.drop off).take 4096)).2.fs src = some D := by
        unfold dataAt
        rw [hw3 src hne]
        exact hs
      have hok2 : ∀ n c q, (sys_fwrite (w.emit (Event.sys Sys.fread src)) dst
          ((D.drop off).take 4096)).2.deny n c q = false := by
        intro n c q
        rw [hk1.1]
        exact hok n c q
      have hle : ((D.drop off).take 4096).length ≤ D.length - off := by
        rw [List.length_take, List.length_drop]
        omega
      have hf2 : D.length - (off + ((D.drop off).take 4096).length) < fuel := by omega
      obtain ⟨r1, r2, r3⟩ := ih (off + ((D.drop off).take 4096).length) _
        (E ++ (D.drop off).take 4096) hok2 hs2 hw2 hf2
      refine ⟨r1, ?_, keeps_trans _ _ _ hk1 r3⟩
      rw [r2, List.append_assoc, ← List.drop_drop, take_append_drop_length]
    · simp only [hlen, if_false]
      have hnil : D.drop off = [] := by
        cases hl : D.drop off with
        | nil => rfl
        | cons a l =>
          rw [hl] at hlen
          simp at hlen
      refine ⟨trivial, ?_, keeps_emit _ _⟩
      rw [hnil, List.append_nil]
      exact hd

theorem fileSize_eq (fs fs1 : Path → Option Node) (p : Path) (h : fs1 p = fs p) :
    fileSize fs1 p = fileSize fs p := by
  unfold fileSize
  rw [h]

theorem appendTo_other (c : Sys) (w : World) (fd : Option Path) (data : List Nat) (x : Path)
    (hx : fd ≠ some x) : (appendTo c w fd data).2.fs x = w.fs x := by
  cases fd with
  | none => rfl
  | some q =>
    have hxq : x ≠ q := fun h => hx (by rw [h])
    unfold appendTo
    simp only
    split
    · rfl
    · split
      · simp [World.put, World.emit, hxq]
      · rfl

theorem sys_fread_length (w : World) (src : Path) (off n : Nat) :
    (sys_fread w src off n).1.length ≤ fileSize w.fs src - off ∧
    (sys_fread w src off n).2.fs = w.fs := by
  unfold sys_fread
  simp only
  split
  · exact ⟨by simp, rfl⟩
  · split
    · rename_i hfs
      refine ⟨?_, rfl⟩
      simp only [fileSize, hfs, List.length_take, List.length_drop]
      omega
    · exact ⟨by simp, rfl⟩

/-- The bound on the number of reads is never what ends the copy loop: when
source and destination are different files, fuel beyond the size of the
source changes nothing. -/
theorem copy_loop_fuel (src dst : Path) (hne : src ≠ dst) (extra fuel : Nat) :
    ∀ (off : Nat) (w : World), fileSize w.fs src - off < fuel →
      copy_loop src dst (fuel + extra) off w = copy_loop src dst fuel off w := by
  induction fuel with
  | zero =>
    intro off w hf
    omega
  | succ fuel ih =>
    intro off w hf
    have hadd : fuel + 1 + extra = (fuel + extra) + 1 := by omega
    rw [hadd]
    unfold copy_loop
    simp only
    obtain ⟨hl, hfs⟩ := sys_fread_length w src off 4096
    split
    · rename_i hpos
      split
      · rfl
      · apply ih
        have h1 : (sys_fwrite (sys_fread w src off 4096).2 dst (sys_fread w src off 4096).1).2.fs src
            = w.fs src := by
          unfold sys_fwrite
          simp only
          rw [appendTo_other _ _ _ _ src (by simp [Ne.symm hne]), hfs]
        rw [fileSize_eq _ _ _ h1]
        omega
    · rfl

/-- The same when the destination is the source itself, which `fopen` has
just truncated: the first read returns nothing. -/
theorem copy_loop_fuel_same (src : Path) (extra : Nat) (w : World)
    (h : fileSize w.fs src = 0) :
    copy_loop src src (fileSize w.fs src + 1 + extra) 0 w = copy_stream src src w := by
  have hl := (sys_fread_length w src 0 4096).1
  have h0 : ¬ 0 < (sys_fread w src 0 4096).1.length := by omega
  have hadd : fileSize w.fs src + 1 + extra = extra + 1 := by omega
  unfold copy_stream
  rw [hadd, h]
  unfold copy_loop
  simp only [h0, if_false]

/-- The bound in `copy_stream` is enough wherever the code runs the loop,
namely right after the destination was opened with `fopen(.., "wb")`: more
reads allowed give the same result. -/
theorem copy_stream_enough (c : Sys) (w : World) (p src dst : Path) (extra : Nat)
    (h : (openTrunc c w p).1 = some dst) :
    copy_loop src dst (fileSize (openTrunc c w p).2.fs src + 1 + extra) 0 (openTrunc c w p).2
      = copy_stream src dst (openTrunc c w p).2 := by
  by_cases hsd : src = dst
  · subst hsd
    have hd := openTrunc_some c w p src h
    have h0 : fileSize (openTrunc c w p).2.fs src = 0 := by
      unfold dataAt at hd
      unfold fileSize
      split at hd
      · rename_i hfs
        simp only [Option.some.injEq] at hd
        subst hd
        simp [hfs]
      · simp at hd
    exact copy_loop_fuel_same src extra _ h0
  · unfold copy_stream
    exact copy_loop_fuel src dst hsd extra _ 0 _ (by omega)

/-! ## C5: a link that precedes its target -/

theorem openTrunc_writable (c : Sys) (w : World) (p q : Path)
    (hden : w.denied c p = false) (hq : follow w.fs SYMLOOP_MAX p = some q)
    (hw : (∃ d m, w.fs q = some (Node.file d m)) ∨ (w.fs q = none ∧ parentErr w.fs q = none)) :
    (openTrunc c w p).1 = some q ∧ dataAt (openTrunc c w p).2.fs q = some [] ∧
    (∀ x, x ≠ q → (openTrunc c w p).2.fs x = w.fs x) := by
  unfold openTrunc
  simp only [hden, Bool.false_eq_true, if_false, hq]
  rcases hw with ⟨d, m, hfs⟩ | ⟨hfs, hpar⟩
  · simp only [hfs]
    refine ⟨trivial, by simp [dataAt, World.put, World.emit], ?_⟩
    intro x hx
    simp [World.put, World.emit, hx]
  · simp only [hfs, hpar]
    refine ⟨trivial, by simp [dataAt, World.put, World.emit], ?_⟩
    intro x hx
    simp [World.put, World.emit, hx]

theorem sys_fopen_r_file (w : World) (p q : Path) (D : List Nat)
    (hden : w.denied Sys.fopen_r p = false) (hq : follow w.fs SYMLOOP_MAX p = some q)
    (hd : dataAt w.fs q = some D) :
    sys_fopen_r w p = (some q, w.emit (Event.sys Sys.fopen_r p)) := by
  unfold sys_fopen_r
  simp only [hden, Bool.false_eq_true, if_false, hq]
  unfold dataAt at hd
  split at hd
  · rename_i hfs
    simp [hfs]
  · simp at hd

theorem dispatch_regular (k : Consts) (t : TAR) (w : World) (p : Path)
    (hr : t.th_buf.typeflag = FileType.Regular) :
    dispatch k t w p = tar_extract_regfile k t w (some p) := by
  unfold dispatch
  simp [TH_ISDIR, TH_ISLNK, TH_ISSYM, TH_ISCHR, TH_ISBLK, TH_ISFIFO, hr]

theorem tar_extract_file_regular_success (k : Consts) (t : TAR) (w : World) (p : Path)
    (hr : t.th_buf.typeflag = FileType.Regular)
    (h0 : (tar_extract_file k t w p).1 = 0) :
    Keeps w (tar_extract_file k t w p).2.2 ∧
    ∃ q, follow (tar_extract_file k t w p).2.2.fs SYMLOOP_MAX p = some q ∧
      dataAt (tar_extract_file k t w p).2.2.fs q
        = some ((t.payload.take (align_up (th_get_size t) k.T_BLOCKSIZE)).take (th_get_size t)) := by
  unfold tar_extract_file at h0 ⊢
  simp only at h0 ⊢
  split at h0
  · split at h0
    · simp at h0
    · rename_i hopt hgo
      simp only [hopt, hgo, ne_eq, not_false_eq_true, if_true, if_false]
      rw [dispatch_regular k t _ p hr] at h0 ⊢
      have hk0 : Keeps w (sys_lstat w p).2 :=
        keeps_of_fs _ _ (sys_lstat_keeps w p).2 (sys_lstat_keeps w p).1
      exact ⟨keeps_trans _ _ _ hk0 (tar_extract_regfile_keeps _ _ _ _),
        tar_extract_regfile_success k t _ p h0⟩
  · rename_i hopt
    simp only [hopt, if_false]
    rw [dispatch_regular k t _ p hr] at h0 ⊢
    exact ⟨tar_extract_regfile_keeps _ _ _ _, tar_extract_regfile_success k t _ p h0⟩

theorem pass1_queue (k : Consts) (pfx : Option Path) (ending : EndSignal) (e : Entry)
    (pl : List Nat) (rest : List (Entry × List Nat)) (t : TAR) (w : World)
    (q : List symlink_entry) (hty : e.typeflag = FileType.Symlink) :
    pass1 k pfx ending ((e, pl) :: rest) t w q =
      pass1 k pfx ending rest t w
        (q ++ [{ target := resolved k pfx e.linkname, linkname := resolved k pfx e.path,
                 mode := 0o700 }]) := by
  rw [pass1_cons]
  have h1 : TH_ISSYM { t with th_buf := e, payload := pl } = true := by
    simp [TH_ISSYM, hty]
  simp only [h1, if_true]
  rw [resolved_eq, resolved_eq, List.take_take, List.take_take, Nat.min_self]
  exact pass1_options k pfx ending rest _ t _ _ rfl

theorem pass2_copy (w : World) (i : Int) (ra rb qa qb : Path) (C : List Nat)
    (hok : ∀ n c q, w.deny n c q = false)
    (hqb : follow w.fs SYMLOOP_MAX rb = some qb) (hC : dataAt w.fs qb = some C)
    (hqa : follow w.fs SYMLOOP_MAX ra = some qa)
    (hwr : (∃ d m, w.fs qa = some (Node.file d m)) ∨ (w.fs qa = none ∧ parentErr w.fs qa = none))
    (hne : qa ≠ qb) :
    (pass2 i [{ target := rb, linkname := ra, mode := 0o700 }] w).code
      = some (if i = 1 then 0 else -1) ∧
    readAt (pass2 i [{ target := rb, linkname := ra, mode := 0o700 }] w).world.fs ra = some C := by
  have hsf := sys_fopen_r_file (w.emit (Event.copy rb ra)) rb qb C (hok _ _ _) hqb hC
  obtain ⟨hd1, hd2, hd3⟩ := openTrunc_writable Sys.fopen_w
    ((w.emit (Event.copy rb ra)).emit (Event.sys Sys.fopen_r rb)) ra qa (hok _ _ _) hqa hwr
  have hkd : Keeps w (openTrunc Sys.fopen_w
      ((w.emit (Event.copy rb ra)).emit (Event.sys Sys.fopen_r rb)) ra).2 :=
    keeps_trans _ _ _ (keeps_trans _ _ _ (keeps_emit _ _) (keeps_emit _ _))
      (openTrunc_keeps _ _ _)
  have hokd : ∀ n c q, (openTrunc Sys.fopen_w
      ((w.emit (Event.copy rb ra)).emit (Event.sys Sys.fopen_r rb)) ra).2.deny n c q = false := by
    intro n c q
    rw [hkd.1]
    exact hok n c q
  have hsrc : dataAt (openTrunc Sys.fopen_w
      ((w.emit (Event.copy rb ra)).emit (Event.sys Sys.fopen_r rb)) ra).2.fs qb = some C := by
    unfold dataAt
    rw [hd3 qb (Ne.symm hne)]
    exact hC
  have hfuel : fileSize (openTrunc Sys.fopen_w
      ((w.emit (Event.copy rb ra)).emit (Event.sys Sys.fopen_r rb)) ra).2.fs qb = C.length := by
    unfold fileSize
    unfold dataAt at hsrc
    split at hsrc
    · rename_i hfs
      simp only [Option.some.injEq] at hsrc
      subst hsrc
      simp [hfs]
    · simp at hsrc
  obtain ⟨c1, c2, c3⟩ := copy_loop_spec qb qa (Ne.symm hne) C (C.length + 1) 0 _ []
    hokd hsrc hd2 (by omega)
  simp only [List.nil_append, List.drop_zero] at c2
  have hcp : copy_stream qb qa (openTrunc Sys.fopen_w
      ((w.emit (Event.copy rb ra)).emit (Event.sys Sys.fopen_r rb)) ra).2
      = copy_loop qb qa (C.length + 1) 0 (openTrunc Sys.fopen_w
      ((w.emit (Event.copy rb ra)).emit (Event.sys Sys.fopen_r rb)) ra).2 := by
    unfold copy_stream
    rw [hfuel]
  have hkc := keeps_trans _ _ _ hkd c3
  have hkch := keeps_trans _ _ _ hkc (sys_chmod_keeps (copy_loop qb qa (C.length + 1) 0
    (openTrunc Sys.fopen_w ((w.emit (Event.copy rb ra)).emit (Event.sys Sys.fopen_r rb)) ra).2).2
    ra 0o700)
  have hdch := sys_chmod_dataAt (copy_loop qb qa (C.length + 1) 0
    (openTrunc Sys.fopen_w ((w.emit (Event.copy rb ra)).emit (Event.sys Sys.fopen_r rb)) ra).2).2
    ra qa 0o700 C c2
  have hres : pass2 i [{ target := rb, linkname := ra, mode := 0o700 }] w =
      Outcome.ret (if i = 1 then 0 else -1)
        (sys_stat (sys_chmod (copy_loop qb qa (C.length + 1) 0
          (openTrunc Sys.fopen_w ((w.emit (Event.copy rb ra)).emit
            (Event.sys Sys.fopen_r rb)) ra).2).2 ra 0o700).2 ra).2 := by
    unfold pass2
    simp only [hsf, sys_fopen_w, hd1, hcp, c1, if_true]
    rfl
  rw [hres]
  refine ⟨rfl, ?_⟩
  simp only [Outcome.world]
  unfold readAt
  rw [(sys_stat_keeps _ _).1, hkch.2, hqa]
  exact hdch

/-- C5, as stated, fails when the two paths are the same: for the stream
`[Symlink(a -> a), Regular(a, [1, 2, 3])]` every call succeeds (`errno` is
never set) and the run returns 0, but the file at `a` ends up empty: pass 2
opens `a` for reading and then truncates it by opening it for writing. -/
theorem tar_extract_all_self_link_empties :
    (tar_extract_all linux (handleOn 0 (plainItem FileType.Regular [] [] 0))
      ⟨[plainItem FileType.Symlink ['a'] ['a'] 0o777, regularItem ['a'] [1, 2, 3] 0o644], EndSignal.clean⟩
      emptyWorld none).code = some 0 ∧
    (tar_extract_all linux (handleOn 0 (plainItem FileType.Regular [] [] 0))
      ⟨[plainItem FileType.Symlink ['a'] ['a'] 0o777, regularItem ['a'] [1, 2, 3] 0o644], EndSignal.clean⟩
      emptyWorld none).world.errno = Errno.E0 ∧
    readAt (tar_extract_all linux (handleOn 0 (plainItem FileType.Regular [] [] 0))
      ⟨[plainItem FileType.Symlink ['a'] ['a'] 0o777, regularItem ['a'] [1, 2, 3] 0o644], EndSignal.clean⟩
      emptyWorld none).world.fs ['a'] = some [] := by
  decide

/-- C5, amended: for the stream `[Symlink(a -> b), Regular(b, content = C)]`
with the same prefix rule on both paths, when no call is made to fail from
outside, the extraction of `b` succeeds, `a` can then be opened for writing
and the resolved `a` and `b` do not lead to the same file, the Symlink entry
is only queued in pass 1 (the filesystem is untouched), the run returns 0 and
the file at `a` holds exactly the bytes `C`, copied in pass 2 from the
extracted `b`. -/
theorem tar_extract_all_symlink_then_regular (k : Consts) (t : TAR) (w w1 : World)
    (pfx : Option Path) (es er : Entry) (pls C pad : List Nat)
    (hs : es.typeflag = FileType.Symlink) (hr : er.typeflag = FileType.Regular)
    (hname : er.path = es.linkname) (hsize : er.size = C.length)
    (hok : ∀ n c q, w.deny n c q = false)
    (hw1 : w1 = (tar_extract_file k { t with th_buf := er, payload := C ++ pad } w
      (resolved k pfx er.path)).2.2)
    (hreg : (tar_extract_file k { t with th_buf := er, payload := C ++ pad } w
      (resolved k pfx er.path)).1 = 0)
    (hdst : Writable w1.fs (resolved k pfx es.path))
    (hne : follow w1.fs SYMLOOP_MAX (resolved k pfx es.path)
      ≠ follow w1.fs SYMLOOP_MAX (resolved k pfx er.path)) :
    pass1 k pfx EndSignal.clean [(es, pls)] t w [] =
      Pass1.finished 1 [{ target := resolved k pfx es.linkname,
                          linkname := resolved k pfx es.path, mode := 0o700 }] w ∧
    (tar_extract_all k t ⟨[(es, pls), (er, C ++ pad)], EndSignal.clean⟩ w pfx).code = some 0 ∧
    readAt (tar_extract_all k t ⟨[(es, pls), (er, C ++ pad)], EndSignal.clean⟩ w pfx).world.fs
      (resolved k pfx es.path) = some C := by
  obtain ⟨hk, qb, hqb, hdata⟩ := tar_extract_file_regular_success k
    { t with th_buf := er, payload := C ++ pad } w (resolved k pfx er.path) hr hreg
  have hC : ((C ++ pad).take (align_up C.length k.T_BLOCKSIZE)).take C.length = C := by
    rw [List.take_take, Nat.min_eq_left (align_up_ge _ _)]
    simp
  simp only [th_get_size, hsize, hC] at hdata
  rw [← hw1] at hk hqb hdata
  obtain ⟨qa, hqa, hwr⟩ := hdst
  have hneq : qa ≠ qb := by
    intro h
    apply hne
    rw [hqa, hqb, h]
  have hok1 : ∀ n c q, w1.deny n c q = false := by
    intro n c q
    rw [hk.1]
    exact hok n c q
  have hp2 := pass2_copy w1 1 (resolved k pfx es.path) (resolved k pfx er.path) qa qb C
    hok1 hqb hdata hqa hwr hneq
  have hq1 : pass1 k pfx EndSignal.clean [(es, pls)] t w [] =
      Pass1.finished 1 [{ target := resolved k pfx es.linkname,
                          linkname := resolved k pfx es.path, mode := 0o700 }] w := by
    rw [pass1_queue k pfx EndSignal.clean es pls [] t w [] hs]
    rfl
  have hrun : tar_extract_all k t ⟨[(es, pls), (er, C ++ pad)], EndSignal.clean⟩ w pfx =
      pass2 1 [{ target := resolved k pfx er.path,
                 linkname := resolved k pfx es.path, mode := 0o700 }] w1 := by
    unfold tar_extract_all
    simp only
    rw [pass1_queue k pfx EndSignal.clean es pls _ t w [] hs, pass1_dispatch k pfx EndSignal.clean er (C ++ pad) [] t w _
      (Or.inl hr)]
    simp only [hreg, ne_eq, not_true_eq_false, if_false, List.nil_append, ← hw1, ← hname]
    rfl
  rw [hrun]
  exact ⟨hq1, hp2.1, hp2.2⟩

/-- C5, witness: the link `a` to `b` comes before the 3-byte file `b`; on an
empty filesystem `a` ends with the 3 bytes. -/
theorem tar_extract_all_symlink_then_regular_witness :
    (tar_extract_file linux
      { handleOn 0 (plainItem FileType.Regular [] [] 0) with
        th_buf := (regularItem ['b'] [1, 2, 3] 0o644).1,
        payload := [1, 2, 3] ++ List.replicate 509 0 } emptyWorld
      (resolved linux none ['b'])).1 = 0 ∧
    readAt (tar_extract_all linux (handleOn 0 (plainItem FileType.Regular [] [] 0))
      ⟨[((plainItem FileType.Symlink ['a'] ['b'] 0o777).1, []),
        ((regularItem ['b'] [1, 2, 3] 0o644).1, [1, 2, 3] ++ List.replicate 509 0)], EndSignal.clean⟩
      emptyWorld none).world.fs (resolved linux none ['a']) = some [1, 2, 3] :=
  ⟨by decide,
   (tar_extract_all_symlink_then_regular linux (handleOn 0 (plainItem FileType.Regular [] [] 0))
      emptyWorld _ none (plainItem FileType.Symlink ['a'] ['b'] 0o777).1
      (regularItem ['b'] [1, 2, 3] 0o644).1 [] [1, 2, 3] (List.replicate 509 0)
      rfl rfl rfl rfl (fun _ _ _ => rfl) rfl (by decide)
      ⟨['a'], by decide, Or.inr ⟨by decide, by decide⟩⟩ (by decide)).2.2⟩

/-! ## Pass 2 -/

theorem quietly_refl (w : World) : Quietly w w := ⟨[], by simp, by simp⟩

theorem quietly_trans (w w1 w2 : World) (h1 : Quietly w w1) (h2 : Quietly w1 w2) :
    Quietly w w2 := by
  obtain ⟨e1, hl1, hq1⟩ := h1
  obtain ⟨e2, hl2, hq2⟩ := h2
  refine ⟨e1 ++ e2, by rw [hl2, hl1, List.append_assoc], ?_⟩
  intro e he
  rcases List.mem_append.mp he with h | h
  · exact hq1 e h
  · exact hq2 e h

theorem quietly_one (w w1 : World) (e : Event) (h : w1.log = w.log ++ [e]) (hq : Quiet e) :
    Quietly w w1 :=
  ⟨[e], h, fun x hx => by rw [List.mem_singleton.mp hx]; exact hq⟩

theorem sys_fopen_r_log (w : World) (p : Path) :
    (sys_fopen_r w p).2.log = w.log ++ [Event.sys Sys.fopen_r p] := by
  unfold sys_fopen_r
  simp only
  split
  · rfl
  · split
    · rfl
    · split <;> rfl

theorem sys_stat_log (w : World) (p : Path) :
    (sys_stat w p).2.log = w.log ++ [Event.sys Sys.stat p] := by
  unfold sys_stat
  simp only
  split
  · rfl
  · split
    · rfl
    · split <;> rfl

theorem sys_fread_log (w : World) (p : Path) (off n : Nat) :
    (sys_fread w p off n).2.log = w.log ++ [Event.sys Sys.fread p] := by
  unfold sys_fread
  simp only
  split
  · rfl
  · split <;> rfl

theorem sys_fwrite_quietly (w : World) (p : Path) (data : List Nat) :
    Quietly w (sys_fwrite w p data).2 := by
  unfold sys_fwrite appendTo
  simp only
  split
  · exact quietly_one _ _ (Event.sys Sys.fwrite p) rfl ⟨by decide, by decide⟩
  · split
    · refine ⟨[Event.sys Sys.fwrite p, Event.wrote p data], by simp [World.emit, World.put], ?_⟩
      intro e he
      simp only [List.mem_cons, List.mem_singleton, List.not_mem_nil, or_false] at he
      rcases he with h | h
      · rw [h]
        exact ⟨by decide, by decide⟩
      · rw [h]
        trivial
    · exact quietly_one _ _ (Event.sys Sys.fwrite p) rfl ⟨by decide, by decide⟩

theorem copy_loop_quietly (src dst : Path) (fuel : Nat) :
    ∀ (off : Nat) (w : World), Quietly w (copy_loop src dst fuel off w).2 := by
  induction fuel with
  | zero =>
    intro off w
    exact quietly_refl w
  | succ fuel ih =>
    intro off w
    have h1 : Quietly w (sys_fread w src off 4096).2 :=
      quietly_one _ _ _ (sys_fread_log w src off 4096) ⟨by decide, by decide⟩
    have h2 := quietly_trans _ _ _ h1
      (sys_fwrite_quietly (sys_fread w src off 4096).2 dst (sys_fread w src off 4096).1)
    unfold copy_loop
    simp only
    split
    · split
      · exact h2
      · exact quietly_trans _ _ _ h2 (ih _ _)
    · exact h1

theorem quiet_copies (evs : List Event) (h : ∀ e ∈ evs, Quiet e) :
    copies evs = [] ∧ sysCalls Sys.mkdir evs = [] ∧ sysCalls Sys.unlink evs = [] := by
  induction evs with
  | nil => exact ⟨rfl, rfl, rfl⟩
  | cons e evs ih =>
    obtain ⟨i1, i2, i3⟩ := ih (fun x hx => h x (List.mem_cons_of_mem _ hx))
    have he := h e (List.mem_cons_self _ _)
    cases e with
    | sys c p =>
      have h1 : c ≠ Sys.mkdir := he.1
      have h2 : c ≠ Sys.unlink := he.2
      refine ⟨?_, ?_, ?_⟩
      · simpa [copies] using i1
      · simpa [sysCalls, h1] using i2
      · simpa [sysCalls, h2] using i3
    | wrote p d =>
      refine ⟨?_, ?_, ?_⟩
      · simpa [copies] using i1
      · simpa [sysCalls] using i2
      · simpa [sysCalls] using i3
    | readfunc n => exact absurd he (by simp [Quiet])
    | call m p => exact absurd he (by simp [Quiet])
    | copy a b => exact absurd he (by simp [Quiet])

theorem copies_append (l1 l2 : List Event) : copies (l1 ++ l2) = copies l1 ++ copies l2 := by
  simp [copies, List.filterMap_append]

theorem sysCalls_append (c : Sys) (l1 l2 : List Event) :
    sysCalls c (l1 ++ l2) = sysCalls c l1 ++ sysCalls c l2 := by
  simp [sysCalls, List.filterMap_append]

theorem quietly_log (w w1 : World) (h : Quietly w w1) :
    copies w1.log = copies w.log ∧ sysCalls Sys.mkdir w1.log = sysCalls Sys.mkdir w.log ∧
    sysCalls Sys.unlink w1.log = sysCalls Sys.unlink w.log := by
  obtain ⟨evs, hl, hq⟩ := h
  obtain ⟨h1, h2, h3⟩ := quiet_copies evs hq
  rw [hl, copies_append, sysCalls_append, sysCalls_append, h1, h2, h3]
  simp

/-- Pass 2 makes no `mkdir` and no `unlink` call, and as long as it returns
it has attempted the copy of every record once, in queue order; the code it
returns is 0 exactly for `i = 1`. -/
theorem pass2_log (i : Int) (queue : List symlink_entry) :
    ∀ w : World,
      sysCalls Sys.mkdir (pass2 i queue w).world.log = sysCalls Sys.mkdir w.log ∧
      sysCalls Sys.unlink (pass2 i queue w).world.log = sysCalls Sys.unlink w.log ∧
      (∀ c, (pass2 i queue w).code = some c →
        c = (if i = 1 then 0 else -1) ∧
        copies (pass2 i queue w).world.log
          = copies w.log ++ queue.map (fun r => (r.target, r.linkname))) := by
  induction queue with
  | nil =>
    intro w
    refine ⟨rfl, rfl, ?_⟩
    intro c hc
    simp only [pass2, Outcome.code, Option.some.injEq] at hc
    exact ⟨hc.symm, by simp [pass2, Outcome.world]⟩
  | cons cur next ih =>
    intro w
    have hcopy : copies (w.emit (Event.copy cur.target cur.linkname)).log
        = copies w.log ++ [(cur.target, cur.linkname)] := by
      simp [World.emit, copies_append, copies]
    have hmk0 : sysCalls Sys.mkdir (w.emit (Event.copy cur.target cur.linkname)).log
        = sysCalls Sys.mkdir w.log := by
      simp [World.emit, sysCalls_append, sysCalls]
    have hul0 : sysCalls Sys.unlink (w.emit (Event.copy cur.target cur.linkname)).log
        = sysCalls Sys.unlink w.log := by
      simp [World.emit, sysCalls_append, sysCalls]
    have hsf : Quietly (w.emit (Event.copy cur.target cur.linkname))
        (sys_fopen_r (w.emit (Event.copy cur.target cur.linkname)) cur.target).2 :=
      quietly_one _ _ _ (sys_fopen_r_log _ _) ⟨by decide, by decide⟩
    have hdf : Quietly (sys_fopen_r (w.emit (Event.copy cur.target cur.linkname)) cur.target).2
        (sys_fopen_w (sys_fopen_r (w.emit (Event.copy cur.target cur.linkname))
          cur.target).2 cur.linkname).2 :=
      quietly_one _ _ _ (openTrunc_log _ _ _) ⟨by decide, by decide⟩
    have hsd := quietly_trans _ _ _ hsf hdf
    unfold pass2
    simp only
    split
    · obtain ⟨a1, a2, a3⟩ := ih (sys_fopen_r (w.emit (Event.copy cur.target cur.linkname))
        cur.target).2
      obtain ⟨b1, b2, b3⟩ := quietly_log _ _ hsf
      refine ⟨by rw [a1, b2, hmk0], by rw [a2, b3, hul0], ?_⟩
      intro c hc
      obtain ⟨c1, c2⟩ := a3 c hc
      refine ⟨c1, ?_⟩
      rw [c2, b1, hcopy]
      simp
    · rename_i src_fp _
      split
      · obtain ⟨a1, a2, a3⟩ := ih (sys_fopen_w (sys_fopen_r
          (w.emit (Event.copy cur.target cur.linkname)) cur.target).2 cur.linkname).2
        obtain ⟨b1, b2, b3⟩ := quietly_log _ _ hsd
        refine ⟨by rw [a1, b2, hmk0], by rw [a2, b3, hul0], ?_⟩
        intro c hc
        obtain ⟨c1, c2⟩ := a3 c hc
        refine ⟨c1, ?_⟩
        rw [c2, b1, hcopy]
        simp
      · rename_i dst_fp _
        have hcp : Quietly (w.emit (Event.copy cur.target cur.linkname))
            (copy_stream src_fp dst_fp (sys_fopen_w (sys_fopen_r
              (w.emit (Event.copy cur.target cur.linkname)) cur.target).2 cur.linkname).2).2 :=
          quietly_trans _ _ _ hsd (copy_loop_quietly _ _ _ _ _)
        split
        · have hch := quietly_one _ _ _ (sys_chmod_log (copy_stream src_fp dst_fp (sys_fopen_w
            (sys_fopen_r (w.emit (Event.copy cur.target cur.linkname)) cur.target).2
            cur.linkname).2).2 cur.linkname cur.mode) ⟨by decide, by decide⟩
          have hst := quietly_one _ _ _ (sys_stat_log (sys_chmod (copy_stream src_fp dst_fp
            (sys_fopen_w (sys_fopen_r (w.emit (Event.copy cur.target cur.linkname))
            cur.target).2 cur.linkname).2).2 cur.linkname cur.mode).2 cur.linkname)
            ⟨by decide, by decide⟩
          have hall := quietly_trans _ _ _ hcp (quietly_trans _ _ _ hch hst)
          obtain ⟨a1, a2, a3⟩ := ih (sys_stat (sys_chmod (copy_stream src_fp dst_fp
            (sys_fopen_w (sys_fopen_r (w.emit (Event.copy cur.target cur.linkname))
            cur.target).2 cur.linkname).2).2 cur.linkname cur.mode).2 cur.linkname).2
          obtain ⟨b1, b2, b3⟩ := quietly_log _ _ hall
          refine ⟨by rw [a1, b2, hmk0], by rw [a2, b3, hul0], ?_⟩
          intro c hc
          obtain ⟨c1, c2⟩ := a3 c hc
          refine ⟨c1, ?_⟩
          rw [c2, b1, hcopy]
          simp
        · obtain ⟨b1, b2, b3⟩ := quietly_log _ _ hcp
          refine ⟨by simp only [Outcome.world]; rw [b2, hmk0],
            by simp only [Outcome.world]; rw [b3, hul0], ?_⟩
          intro c hc
          simp [Outcome.code] at hc

/-- Pass 1, when it does not abort, ends with the signal of the reader and
has queued one record per Symlink entry, in stream order. -/
theorem pass1_finished (k : Consts) (pfx : Option Path) (ending : EndSignal)
    (items : List (Entry × List Nat)) :
    ∀ (t : TAR) (w : World) (q : List symlink_entry) (i : Int) (q1 : List symlink_entry)
      (w1 : World), pass1 k pfx ending items t w q = Pass1.finished i q1 w1 →
      i = ending.code ∧
      q1 = q ++ (items.filter (fun it => it.1.typeflag = FileType.Symlink)).map
        (fun it => recordOf k pfx it.1) := by
  induction items with
  | nil =>
    intro t w q i q1 w1 h
    simp only [pass1, Pass1.finished.injEq] at h
    exact ⟨h.1.symm, by simp [h.2.1]⟩
  | cons it items ih =>
    intro t w q i q1 w1 h
    by_cases hs : it.1.typeflag = FileType.Symlink
    · rw [show it = (it.1, it.2) from rfl, pass1_queue k pfx ending it.1 it.2 items t w q hs] at h
      obtain ⟨h1, h2⟩ := ih _ _ _ _ _ _ h
      refine ⟨h1, ?_⟩
      rw [h2]
      simp [hs, recordOf]
    · rw [pass1_cons] at h
      have h1 : TH_ISSYM { t with th_buf := it.1, payload := it.2 } = false := by
        simp [TH_ISSYM, hs]
      simp only [h1, Bool.false_eq_true, if_false] at h
      split at h
      · split at h
        · simp at h
        · obtain ⟨h2, h3⟩ := ih _ _ _ _ _ _ h
          refine ⟨h2, ?_⟩
          rw [h3]
          simp [hs]
      · obtain ⟨h2, h3⟩ := ih _ _ _ _ _ _ h
        refine ⟨h2, ?_⟩
        rw [h3]
        simp [hs]

/-- Whenever `tar_extract_all` returns, the code is 0 exactly when pass 1 did
not abort and the stream ended with `th_read` returning 1. -/
theorem tar_extract_all_code (k : Consts) (t : TAR) (a : Archive) (w : World)
    (pfx : Option Path) (c : Int) (hc : (tar_extract_all k t a w pfx).code = some c) :
    c = 0 ↔ (a.ending = EndSignal.clean ∧ ∃ q w1, pass1 k pfx a.ending a.items t w [] =
      Pass1.finished 1 q w1) := by
  unfold tar_extract_all at hc
  cases hp : pass1 k pfx a.ending a.items t w [] with
  | aborted w1 =>
    rw [hp] at hc
    simp only [Outcome.code, Option.some.injEq] at hc
    constructor
    · intro h0
      rw [h0] at hc
      simp at hc
    · rintro ⟨_, q, w2, h⟩
      simp at h
  | finished i q w1 =>
    rw [hp] at hc
    simp only at hc
    obtain ⟨hi, _⟩ := pass1_finished k pfx a.ending a.items t w [] i q w1 hp
    obtain ⟨hcode, _⟩ := (pass2_log i q w1).2.2 c hc
    subst hi
    cases hend : a.ending with
    | clean =>
      rw [hend] at hcode
      simp only [EndSignal.code, if_true] at hcode
      exact ⟨fun _ => ⟨rfl, q, w1, rfl⟩, fun _ => hcode⟩
    | error =>
      rw [hend] at hcode
      simp only [EndSignal.code] at hcode
      constructor
      · intro h0
        rw [h0] at hcode
        simp at hcode
      · rintro ⟨h1, _⟩
        simp at h1

/-! ## C4, C8, C10: what pass 2 does not do -/

/-- C4 at its failing input: pass 1 ends without abort on a clean end of
archive, the one deferred copy meets a failing `fwrite`, and the run does
not return 0: it reaches the `fread` on a closed stream. -/
theorem tar_extract_all_write_error_no_return :
    oneLinkArchive.ending = EndSignal.clean ∧
    (∃ q w1, pass1 linux none oneLinkArchive.ending oneLinkArchive.items freshHandle
      (writeFailWorld ['a']) [] = Pass1.finished 1 q w1) ∧
    (tar_extract_all linux freshHandle oneLinkArchive (writeFailWorld ['a']) none).code = none :=
  ⟨rfl, ⟨_, _, rfl⟩, by decide⟩

/-- C10 at its failing input: the queue holds the records of `a1` and `a2`;
the copy of `a1` meets a failing `fwrite`, after which the copy of `a2` is
not attempted. -/
theorem pass2_write_error_drops_next_record :
    (∃ w1, pass1 linux none EndSignal.clean twoLinksArchive.items freshHandle (writeFailWorld ['a', '1']) []
      = Pass1.finished 1 [⟨['b'], ['a', '1'], 0o700⟩, ⟨['b'], ['a', '2'], 0o700⟩] w1) ∧
    (tar_extract_all linux freshHandle twoLinksArchive (writeFailWorld ['a', '1']) none).code
      = none ∧
    copies (tar_extract_all linux freshHandle twoLinksArchive (writeFailWorld ['a', '1'])
      none).world.log = [(['b'], ['a', '1'])] :=
  ⟨⟨_, rfl⟩, by decide, by decide⟩

/-- C8 at its failing input: the link `d/a` lies in a directory that no entry
creates.  The run returns 0 without a single `mkdir` or `unlink` call and
nothing exists at `d/a`; `tar_extract_symlink`, run on the same entry
afterwards, creates `d` and the copy. -/
theorem pass2_leaves_nested_link_out :
    (tar_extract_all linux freshHandle nestedLinkArchive emptyWorld none).code = some 0 ∧
    (tar_extract_all linux freshHandle nestedLinkArchive emptyWorld none).world.fs
      ['d', '/', 'a'] = none ∧
    sysCalls Sys.mkdir
      (tar_extract_all linux freshHandle nestedLinkArchive emptyWorld none).world.log = [] ∧
    sysCalls Sys.unlink
      (tar_extract_all linux freshHandle nestedLinkArchive emptyWorld none).world.log = [] ∧
    (tar_extract_symlink (handleOn 0 (plainItem FileType.Symlink ['d', '/', 'a'] ['b'] 0o777))
      (tar_extract_all linux freshHandle nestedLinkArchive emptyWorld none).world
      (some ['d', '/', 'a'])).1 = 0 ∧
    readAt (tar_extract_symlink
      (handleOn 0 (plainItem FileType.Symlink ['d', '/', 'a'] ['b'] 0o777))
      (tar_extract_all linux freshHandle nestedLinkArchive emptyWorld none).world
      (some ['d', '/', 'a'])).2.fs ['d', '/', 'a'] = some [1, 2, 3] := by
  decide

end Libtar
